import Mathlib

/-!
Verification of the `bitcoin-block-builder` implementation
(`src/implementation/src/`).  The Rust sources are shallowly embedded:

* byte strings (`Vec<u8>`) become `List Nat` (each entry a byte value);
* hex `String` fields that are only compared for equality stay `String`;
  hex fields that are decoded before use are carried directly as byte
  lists, with explicit `hexEncode`/`hexDecode` at the boundaries that the
  source crosses;
* machine integers become `Nat`/`Int`, with an explicit `% 2^w` exactly
  where the Rust arithmetic can wrap (release-mode two's-complement
  wrapping), and explicit casts (`as i64`, `as u32`) modelled as functions;
* panics (`panic!`, `expect`, slice-out-of-range, division by zero,
  proof-of-work exhaustion) are modelled by `Option`/`Except` error
  results;
* the external cryptographic collaborators (SHA-256, RIPEMD-160,
  secp256k1 signature verification from the `sha2`/`ripemd`/`secp256k1`
  crates) are abstracted as parameters, since they are not code of this
  repository; every theorem below holds for an arbitrary instantiation.
-/

namespace BlockBuilder

/-- Little-endian byte encoding of `n`, exactly `k` bytes
(`u32::to_le_bytes`, `u64::to_le_bytes`, truncating like an `as` cast). -/
def leBytes : Nat → Nat → List Nat
  | 0, _ => []
  | k + 1, n => n % 256 :: leBytes k (n / 256)

/-- Interpret a byte list as a little-endian natural number
(`BigUint::from_bytes_le`). -/
def leToNat : List Nat → Nat
  | [] => 0
  | b :: bs => b + 256 * leToNat bs

/-- Interpret a byte list as a big-endian natural number
(`BigUint::from_bytes_be`). -/
def beToNat (bs : List Nat) : Nat :=
  bs.foldl (fun acc b => acc * 256 + b) 0

/-- `validation/utils.rs::varint`: bitcoin variable-length integer.
The source panics for `n > u64::MAX`; no caller can reach that branch
(all arguments are `usize` lengths), and it is mapped to `[]` here. -/
def varint (n : Nat) : List Nat :=
  if n ≤ 252 then [n]
  else if n ≤ 0xffff then 0xfd :: leBytes 2 n
  else if n ≤ 0xffffffff then 0xfe :: leBytes 4 n
  else if n ≤ 0xffffffffffffffff then 0xff :: leBytes 8 n
  else []

/-- Lower-case hex digit for a nibble. -/
def hexDigit (n : Nat) : Char :=
  if n < 10 then Char.ofNat (48 + n) else Char.ofNat (87 + n)

/-- `hex::encode`: lower-case hex string of a byte list. -/
def hexEncode (bs : List Nat) : String :=
  String.mk (bs.flatMap (fun b => [hexDigit (b / 16), hexDigit (b % 16)]))

/-- Value of one hex digit character, if valid. -/
def hexDigitVal (c : Char) : Option Nat :=
  if 48 ≤ c.toNat ∧ c.toNat ≤ 57 then some (c.toNat - 48)
  else if 97 ≤ c.toNat ∧ c.toNat ≤ 102 then some (c.toNat - 87)
  else if 65 ≤ c.toNat ∧ c.toNat ≤ 70 then some (c.toNat - 55)
  else none

/-- `hex::decode` on a character list. -/
def hexDecodeChars : List Char → Option (List Nat)
  | [] => some []
  | [_] => none
  | c₁ :: c₂ :: cs => do
      let h ← hexDigitVal c₁
      let l ← hexDigitVal c₂
      let rest ← hexDecodeChars cs
      pure ((16 * h + l) :: rest)

/-- `hex::decode` on a string. -/
def hexDecode (s : String) : Option (List Nat) :=
  hexDecodeChars s.data

/-- `hex::decode(..).expect(..)`: the source panics on bad hex; the panic
value is represented by `[]` (never reached on data produced by the
program, whose hex fields are `hex::encode` outputs). -/
def hexDecodeD (s : String) : List Nat :=
  (hexDecode s).getD []

/-- `double_hash`: apply the (abstracted) SHA-256 twice. -/
def doubleHash (sha : List Nat → List Nat) (x : List Nat) : List Nat :=
  sha (sha x)

/-- 32 zero bytes. -/
def zeros32 : List Nat := List.replicate 32 0

/-! ## Data model (`parsing/transaction_structs.rs`)

Hex-string fields that the source decodes before every use
(`TxIn.txid`, `scriptsig`, `witness` elements, `scriptpubkey`s) are
carried as byte lists; hex-string fields that the source only compares or
copies (`meta.txid_hex`, `meta.wtxid_hex`, `meta.parents`) stay `String`. -/

/-- `TxOut` (source `parsing/transaction_structs.rs`). -/
structure TxOut where
  scriptpubkey : Option (List Nat)
  scriptpubkey_type : String
  value : Nat            -- u64
  deriving DecidableEq, Repr

/-- `Script` — the prevout record embedded in each input. -/
structure Script where
  scriptpubkey : List Nat
  scriptpubkey_type : String
  value : Nat            -- u64
  deriving DecidableEq, Repr

/-- `InputType`. -/
inductive InputType where
  | P2TR | P2PKH | P2SH | P2WPKH | P2WSH
  | UNKNOWN (s : String)
  deriving DecidableEq, Repr

/-- `TxIn`. -/
structure TxIn where
  in_type : InputType
  txid : List Nat        -- 32 bytes, hex-decoded form of the source's hex string
  vout : Nat             -- u32
  scriptsig : Option (List Nat)
  prevout : Script
  witness : Option (List (List Nat))
  is_coinbase : Bool
  sequence : Nat         -- u32
  deriving DecidableEq, Repr

/-- `Packet`. -/
structure Packet where
  packet_weight : Nat := 0
  packet_fee_sat : Nat := 0
  packet_feerate_weight : Nat := 0   -- sat/weight_unit
  deriving DecidableEq, Repr

/-- `TxMetadata`. -/
structure TxMetadata where
  json_path : Option String := none
  txid_hex : String := ""
  wtxid_hex : String := ""
  packet_data : Packet := {}
  weight : Nat := 0      -- u64
  fee : Nat := 0         -- u64
  parents : Option (List String) := none
  deriving DecidableEq, Repr

/-- `Transaction`. -/
structure Transaction where
  meta : TxMetadata := {}
  version : Int          -- i32
  locktime : Nat         -- u32
  vin : List TxIn
  vout : List TxOut
  deriving DecidableEq, Repr

/-! ## Value and feerate validation (`validation/validate_values.rs`) -/

/-- One wrapping `u64` addition (`+=` on `u64`, release semantics). -/
def add64 (a b : Nat) : Nat := (a + b) % 2 ^ 64

/-- The `input_sum` accumulation loop of `validate_values_and_set_fee`. -/
def inputSum (vin : List TxIn) : Nat :=
  vin.foldl (fun acc txin => add64 acc txin.prevout.value) 0

/-- The `output_sum` accumulation loop of `validate_values_and_set_fee`. -/
def outputSum (vout : List TxOut) : Nat :=
  vout.foldl (fun acc txout => add64 acc txout.value) 0

/-- `validate_values_and_set_fee`.  The Rust function takes
`&mut Transaction` and returns `bool`; it is modelled as returning the
flag together with the (possibly fee-updated) transaction. -/
def validate_values_and_set_fee (tx : Transaction) : Bool × Transaction :=
  if tx.vin.isEmpty || tx.vout.isEmpty then (false, tx)
  else
    let input_sum := inputSum tx.vin
    let output_sum := outputSum tx.vout
    if input_sum < output_sum then (false, tx)
    else if input_sum > 20999999 * 100000000 || output_sum > 20999999 * 100000000 then
      (false, tx)
    else (true, { tx with meta := { tx.meta with fee := input_sum - output_sum } })

/-- `validate_feerate`.  `tx.meta.fee / vbyte_size` is a Rust `u64`
division, which panics when `vbyte_size = 0`; the panic is `none`. -/
def validate_feerate (tx : Transaction) : Option Bool :=
  let vbyte_size := tx.meta.weight / 4
  if vbyte_size = 0 then none
  else if tx.meta.fee / vbyte_size < 1 then some false
  else some true

/-! ## Block cut (`mining/transaction_sorting.rs::cut_size`) -/

/-- The Rust `tx.meta.weight as i64` cast (u64 → i64, two's complement). -/
def i64cast (n : Nat) : Int :=
  if n < 2 ^ 63 then (n : Int) else (n : Int) - 2 ^ 64

/-- The loop of `cut_size`: `free_block_space` is an `i64`, a transaction
is taken while `free_block_space > tx.meta.weight as i64`, and the loop
`break`s at the first transaction that does not fit. -/
def cutSizeGo (free : Int) : List Transaction → List Transaction
  | [] => []
  | tx :: rest =>
    if i64cast tx.meta.weight < free then
      tx :: cutSizeGo (free - i64cast tx.meta.weight) rest
    else []

/-- `cut_size`, starting from the 3,970,000 weight-unit budget. -/
def cut_size (sorted_transactions : List Transaction) : List Transaction :=
  cutSizeGo 3970000 sorted_transactions

/-- The cut as the specification words it: a greedy prefix over a natural
budget, including a transaction exactly when the remaining budget is
strictly greater than its weight. -/
def greedyCutSpec (budget : Nat) : List Transaction → List Transaction
  | [] => []
  | tx :: rest =>
    if tx.meta.weight < budget then
      tx :: greedyCutSpec (budget - tx.meta.weight) rest
    else []

/-! ## Serialization (`validation/utils.rs`, `validation/validate_parsing.rs`) -/

/-- `get_outpoint`: reversed txid bytes then the little-endian `u32`
output index (the source hex-decodes the txid; here it is already a byte
list). -/
def get_outpoint (input : TxIn) : List Nat :=
  input.txid.reverse ++ leBytes 4 input.vout

/-- `serialize_input` (identifier serialization). -/
def serialize_input (input : TxIn) : List Nat :=
  let ss := input.scriptsig.getD []
  get_outpoint input ++ varint ss.length ++ ss ++ leBytes 4 input.sequence

/-- `serialize_output`. -/
def serialize_output (output : TxOut) : List Nat :=
  let spk := output.scriptpubkey.getD []
  leBytes 8 output.value ++ varint spk.length ++ spk

/-- `serialize_witnesses_with_amount`: per input, the witness count and
its length-prefixed elements, or a single `0x00` for inputs without a
witness. -/
def serialize_witnesses_with_amount (tx : Transaction) : List Nat :=
  tx.vin.flatMap fun input =>
    match input.witness with
    | some ws => varint ws.length ++ ws.flatMap (fun w => varint w.length ++ w)
    | none => [0]

/-- `i32::to_le_bytes` (two's complement). -/
def leBytesI32 (v : Int) : List Nat :=
  leBytes 4 (v % 2 ^ 32).toNat

/-- `assemble_txid_preimage`: the (w)txid preimage; marker/flag and the
witness block are included when `witness` is true. -/
def assemble_txid_preimage (tx : Transaction) (witness : Bool) : List Nat :=
  leBytesI32 tx.version
    ++ (if witness then [0x00, 0x01] else [])
    ++ varint tx.vin.length
    ++ tx.vin.flatMap serialize_input
    ++ varint tx.vout.length
    ++ tx.vout.flatMap serialize_output
    ++ (if witness then serialize_witnesses_with_amount tx else [])
    ++ leBytes 4 tx.locktime

/-- `get_txid`: reversed double hash. -/
def get_txid (sha : List Nat → List Nat) (preimage : List Nat) : List Nat :=
  (doubleHash sha preimage).reverse

/-- `hash_txid`: lower-case hex of the third SHA-256 pass. -/
def hash_txid (sha : List Nat → List Nat) (txid : List Nat) : String :=
  hexEncode (sha txid)

/-! ## Weight (`validation/weight_calculation.rs`)

All `u32` arithmetic wraps (`+=`, `* 4` and `.len() as u32` casts), as in
a Rust release build. -/

/-- One wrapping `u32` addition. -/
def add32 (a b : Nat) : Nat := (a + b) % 2 ^ 32

/-- `is_segwit`: some input carries a witness. -/
def is_segwit (tx : Transaction) : Bool :=
  tx.vin.any (·.witness.isSome)

/-- `input_weight_sum`: varint of the input count plus each serialized
input's byte length, accumulated in `u32`. -/
def input_weight_sum (tx : Transaction) : Nat :=
  tx.vin.foldl
    (fun acc txin => add32 acc ((serialize_input txin).length % 2 ^ 32))
    (add32 0 ((varint tx.vin.length).length % 2 ^ 32))

/-- `output_weight_sum`. -/
def output_weight_sum (tx : Transaction) : Nat :=
  tx.vout.foldl
    (fun acc txout => add32 acc ((serialize_output txout).length % 2 ^ 32))
    (add32 0 ((varint tx.vout.length).length % 2 ^ 32))

/-- `witness_weight_sum`: byte length of every witness element (length
prefixes and counts are not included). -/
def witness_weight_sum (tx : Transaction) : Nat :=
  tx.vin.foldl
    (fun acc txin =>
      match txin.witness with
      | some ws => ws.foldl (fun a w => add32 a (w.length % 2 ^ 32)) acc
      | none => acc)
    0

/-- `calculate_weight` (u32, wrapping). -/
def calculate_weight (tx : Transaction) : Nat :=
  let weight := 4 * 4
  let weight :=
    if is_segwit tx then add32 (add32 weight 2) (witness_weight_sum tx) else weight
  let weight := add32 weight ((input_weight_sum tx * 4) % 2 ^ 32)
  let weight := add32 weight ((output_weight_sum tx * 4) % 2 ^ 32)
  add32 weight (4 * 4)

/-- `validate_and_set_weight`. -/
def validate_and_set_weight (tx : Transaction) : Bool × Transaction :=
  let weight := calculate_weight tx
  if weight > 4000000 - (400 + 320) then (false, tx)
  else (true, { tx with meta := { tx.meta with weight := weight } })

/-! ## Identifier validation (`validation/validate_parsing.rs`) and the
sanity-check chain (`validation/mod.rs`) -/

/-- `validate_txid_hash_filename`.  `sha` abstracts SHA-256 and `stemOf`
abstracts `Path::file_stem` composed with `to_str` (both external to the
repository).  The function stores txid/wtxid hex and compares the triple
hash with the file stem. -/
def validate_txid_hash_filename (sha : List Nat → List Nat)
    (stemOf : String → Option String) (tx : Transaction) : Bool × Transaction :=
  let tx_preimage := assemble_txid_preimage tx false
  let txid_bytes := get_txid sha tx_preimage
  let wtxid_bytes :=
    if is_segwit tx then get_txid sha (assemble_txid_preimage tx true) else txid_bytes
  let tx' := { tx with meta := { tx.meta with
      txid_hex := hexEncode txid_bytes, wtxid_hex := hexEncode wtxid_bytes } }
  let triple_hashed := hash_txid sha txid_bytes
  match tx.meta.json_path with
  | some json_path =>
    match stemOf json_path with
    | some filename_str => (filename_str = triple_hashed, tx')
    | none => (false, tx')
  | none => (false, tx')

/-- `ValidationResult` (`validation/mod.rs`). -/
inductive ValidationResult where
  | Valid
  | Invalid (reason : String)
  deriving DecidableEq, Repr

/-- `sanity_checks`: values → identifier → weight → feerate, in source
order; `none` models the division-by-zero panic inside
`validate_feerate`. -/
def sanity_checks (sha : List Nat → List Nat) (stemOf : String → Option String)
    (tx : Transaction) : Option (ValidationResult × Transaction) :=
  let (ok₁, tx₁) := validate_values_and_set_fee tx
  if !ok₁ then some (.Invalid "Values don't add up.", tx₁)
  else
    let (ok₂, tx₂) := validate_txid_hash_filename sha stemOf tx₁
    if !ok₂ then some (.Invalid "Txid does not represent filename!", tx₂)
    else
      let (ok₃, tx₃) := validate_and_set_weight tx₂
      if !ok₃ then some (.Invalid "Transaction weight too high!", tx₃)
      else
        match validate_feerate tx₃ with
        | none => none
        | some false => some (.Invalid "too low feerate", tx₃)
        | some true => some (.Valid, tx₃)

/-- A transaction whose weight exactly fills the whole cut budget: the
strict greater-than in `cut_size` excludes it. -/
def exactFitTx : Transaction :=
  { meta := { weight := 3970000 }, version := 2, locktime := 0, vin := [], vout := [] }

/-! ## Transaction sorting (`mining/transaction_sorting.rs`) -/

instance : Inhabited Transaction :=
  ⟨{ version := 0, locktime := 0, vin := [], vout := [] }⟩

/-- `get_parent_index`: index of the first transaction whose txid matches,
or the list length when there is none (the source counts until `break`). -/
def get_parent_index : List Transaction → String → Nat
  | [], _ => 0
  | tx :: rest, txid =>
    if tx.meta.txid_hex = txid then 0 else get_parent_index rest txid + 1

/-- `push_parent_in_front`: remove the transaction at `parent_index` and
re-insert it at `child_index`; out-of-range indices leave the list
unchanged. -/
def push_parent_in_front (transactions : List Transaction)
    (parent_index child_index : Nat) : List Transaction :=
  if parent_index < transactions.length ∧ child_index < transactions.length then
    (transactions.eraseIdx parent_index).insertIdx child_index
      (transactions.getD parent_index default)
  else transactions

/-- The `parents` field as a plain list. -/
def parentsOf (tx : Transaction) : List String := tx.meta.parents.getD []

/-- The inner `for parent_txid in parents` scan of `put_parents_in_front`:
the parent index of the first parent whose index exceeds `tx_index`. -/
def firstBadParent (whole : List Transaction) (parents : Option (List String))
    (tx_index : Nat) : Option Nat :=
  match parents with
  | none => none
  | some ps => (ps.map (get_parent_index whole)).find? fun pIdx =>
      decide (tx_index < pIdx)

/-- The outer `for tx in transactions_cloned` scan: the first
(child index, parent index) pair that triggers a lift. -/
def findBad (whole : List Transaction) : List Transaction → Nat → Option (Nat × Nat)
  | [], _ => none
  | tx :: rest, tx_index =>
    match firstBadParent whole tx.meta.parents tx_index with
    | some parent_index => some (tx_index, parent_index)
    | none => findBad whole rest (tx_index + 1)

/-- One `'outer` iteration of `put_parents_in_front`: `none` when a full
scan changes nothing (`nothing_changed` stays true), otherwise the list
after the first lift (after which the source restarts the scan). -/
def scanStep (presorted : List Transaction) : Option (List Transaction) :=
  match findBad presorted presorted 0 with
  | some (tx_index, parent_index) =>
    some (push_parent_in_front presorted parent_index tx_index)
  | none => none

/-- `put_parents_in_front`'s `while !nothing_changed` loop, with an
explicit iteration budget: the source loops unboundedly, and C8 examines
when a budget always suffices (`none` = budget exhausted, i.e. the source
would still be looping). -/
def putParentsLoop : Nat → List Transaction → Option (List Transaction)
  | 0, _ => none
  | fuel + 1, presorted =>
    match scanStep presorted with
    | none => some presorted
    | some next => putParentsLoop fuel next

/-- Stable insertion step for the descending feerate sort
(`sort_by(|a, b| b.feerate.cmp(&a.feerate))`): an element moves past
another only when its feerate is strictly larger, keeping ties in input
order as Rust's stable sort does. -/
def insertByFeerate (t : Transaction) : List Transaction → List Transaction
  | [] => [t]
  | u :: us =>
    if u.meta.packet_data.packet_feerate_weight ≤ t.meta.packet_data.packet_feerate_weight
    then t :: u :: us
    else u :: insertByFeerate t us

/-- The descending stable feerate sort. -/
def sortByFeerateDesc : List Transaction → List Transaction
  | [] => []
  | t :: ts => insertByFeerate t (sortByFeerateDesc ts)

/-- `sort_transactions`: feerate sort, then the parent-lift pass.  The
`HashMap` argument is modelled as the list of its values; `fuel` bounds
the lift loop (see `putParentsLoop`). -/
def sort_transactions (fuel : Nat) (txs : List Transaction) :
    Option (List Transaction) :=
  putParentsLoop fuel (sortByFeerateDesc txs)

/-- The specification's termination measure for the parent-lift pass:
`Σ (parent_index − child_index)⁺` over every (transaction, parent)
pair. -/
def liftMeasure (l : List Transaction) : Nat :=
  (l.enum.map fun p =>
    ((parentsOf p.2).map fun q => get_parent_index l q - p.1).sum).sum

/-- The parent-before-child invariant of a block list: any transaction
carrying a parent txid appears strictly after the transaction with that
txid. -/
def parentBeforeChild (B : List Transaction) : Prop :=
  ∀ i j : Fin B.length, ∀ p, p ∈ parentsOf (B.get i) →
    (B.get j).meta.txid_hex = p → (j : Nat) < (i : Nat)

instance (B : List Transaction) : Decidable (parentBeforeChild B) := by
  unfold parentBeforeChild; infer_instance

/-! ## Exact (unwrapped) weight totals, used to express when the `u32`
weight arithmetic does not wrap -/

/-- Exact byte count of the input section (count varint plus serialized
inputs). -/
def inputBytes (tx : Transaction) : Nat :=
  (varint tx.vin.length).length + (tx.vin.map fun i => (serialize_input i).length).sum

/-- Exact byte count of the output section. -/
def outputBytes (tx : Transaction) : Nat :=
  (varint tx.vout.length).length + (tx.vout.map fun o => (serialize_output o).length).sum

/-- Exact byte count of all witness elements (no length prefixes). -/
def witnessBytes (tx : Transaction) : Nat :=
  (tx.vin.map fun i => ((i.witness.getD []).map List.length).sum).sum

/-- The weight `calculate_weight` computes when no `u32` operation
wraps. -/
def plainWeight (tx : Transaction) : Nat :=
  16 + (if is_segwit tx then 2 + witnessBytes tx else 0)
    + 4 * inputBytes tx + 4 * outputBytes tx + 16

/-! ## Coinbase assembly (`mining/construct_coinbase.rs`) -/

/-- `CoinbaseTxData`. -/
structure CoinbaseTxData where
  txid_hex : String
  txid_natural_bytes : List Nat
  assembled_tx : List Nat
  deriving DecidableEq, Repr

/-- One level of `get_merkle_root`'s inner `for`-loop: hash consecutive
pairs (the loop steps by two over an even-length list; a leftover single
element cannot occur after the odd-length duplication). -/
def hashPairs (sha : List Nat → List Nat) : List (List Nat) → List (List Nat)
  | a :: b :: rest => doubleHash sha (a ++ b) :: hashPairs sha rest
  | _ => []

/-- The `while merkle_tree.len() > 1` loop of `get_merkle_root`,
duplicating the last hash when the level has odd length.  The Rust loop
needs no fuel; each pass halves the level, so `l.length` iterations are
more than enough (`merkleLoop_length_le_one` below confirms the fuel
passed by `get_merkle_root` always reaches the single root). -/
def merkleLoop (sha : List Nat → List Nat) : Nat → List (List Nat) → List (List Nat)
  | 0, l => l
  | fuel + 1, l =>
    if 1 < l.length then
      merkleLoop sha fuel
        (hashPairs sha (if l.length % 2 ≠ 0 then l ++ [l.getLastD []] else l))
    else l

/-- `get_merkle_root`.  A one-element list is returned unchanged (the
source's early `return`); the source indexes `[0]` at the end and would
panic on an empty input, which no caller passes — `headD []` stands for
that panic. -/
def get_merkle_root (sha : List Nat → List Nat) (block_txs : List (List Nat)) : List Nat :=
  if block_txs.length = 1 then block_txs.headD []
  else (merkleLoop sha block_txs.length block_txs).headD []

/-- The wtxid merkle tree input and root used by
`calc_wtxid_commitment_scriptpubkey`: 32 zero bytes (the coinbase wtxid)
followed by each block transaction's reversed wtxid bytes. -/
def wtxid_merkle_root (sha : List Nat → List Nat) (block_txs : List Transaction) : List Nat :=
  get_merkle_root sha
    (zeros32 :: block_txs.map fun tx => (hexDecodeD tx.meta.wtxid_hex).reverse)

/-- `calc_wtxid_commitment_scriptpubkey`: `6a24aa21a9ed` followed by
`double_hash(wtxid_merkle_root ‖ 32 zero bytes)`. -/
def calc_wtxid_commitment_scriptpubkey (sha : List Nat → List Nat)
    (block_txs : List Transaction) : List Nat :=
  [0x6a, 0x24, 0xaa, 0x21, 0xa9, 0xed]
    ++ doubleHash sha (wtxid_merkle_root sha block_txs ++ zeros32)

/-- `count_fees` (wrapping `u64` accumulation). -/
def count_fees (block_txs : List Transaction) : Nat :=
  block_txs.foldl (fun acc tx => add64 acc tx.meta.fee) 0

/-- The fixed 17-byte scriptsig payload
(`1043797068657270756E6B467574757265`). -/
def coinbaseAsciiPayload : List Nat :=
  [0x10, 0x43, 0x79, 0x70, 0x68, 0x65, 0x72, 0x70, 0x75, 0x6E, 0x6B,
   0x46, 0x75, 0x74, 0x75, 0x72, 0x65]

/-- The fixed P2WPKH reward scriptpubkey
(`001435f6de260c9f3bdee47524c473a6016c0c055cb9`). -/
def rewardScriptpubkey : List Nat :=
  [0x00, 0x14, 0x35, 0xf6, 0xde, 0x26, 0x0c, 0x9f, 0x3b, 0xde, 0xe4,
   0x75, 0x24, 0xc4, 0x73, 0xa6, 0x01, 0x6c, 0x0c, 0x05, 0x5c, 0xb9]

/-- `serialize_coinbase_transaction`, following the source's byte layout
exactly; marker/flag and the witness reserved value are included when
`is_segwit_flag` is true. -/
def serialize_coinbase_transaction (sha : List Nat → List Nat)
    (block_txs : List Transaction) (is_segwit_flag : Bool) : List Nat :=
  let wtxid_commitment_scriptpubkey := calc_wtxid_commitment_scriptpubkey sha block_txs
  let reward := add64 (count_fees block_txs) 625000000
  let scriptsig := varint (varint 839653).length ++ varint 839653 ++ coinbaseAsciiPayload
  [0x01, 0x00, 0x00, 0x00]                                        -- version
    ++ (if is_segwit_flag then [0x00, 0x01] else [])              -- marker + flag
    ++ [0x01] ++ List.replicate 32 0 ++ [0xff, 0xff, 0xff, 0xff]  -- input count + outpoint + index
    ++ varint scriptsig.length ++ scriptsig
    ++ [0xff, 0xff, 0xff, 0xff]                                   -- sequence
    ++ [0x02]                                                     -- output count
    ++ leBytes 8 reward
    ++ varint rewardScriptpubkey.length ++ rewardScriptpubkey
    ++ [0, 0, 0, 0, 0, 0, 0, 0]                                   -- second output value
    ++ varint wtxid_commitment_scriptpubkey.length ++ wtxid_commitment_scriptpubkey
    ++ (if is_segwit_flag then [0x01, 0x20] ++ List.replicate 32 0 else [])
    ++ [0x00, 0x00, 0x00, 0x00]                                   -- locktime

/-- `assemble_coinbase_transaction`. -/
def assemble_coinbase_transaction (sha : List Nat → List Nat)
    (block_txs : List Transaction) : CoinbaseTxData :=
  let coinbase_tx_witness := serialize_coinbase_transaction sha block_txs true
  let coinbase_tx_no_witness := serialize_coinbase_transaction sha block_txs false
  { txid_hex := hexEncode (get_txid sha coinbase_tx_no_witness),
    txid_natural_bytes := doubleHash sha coinbase_tx_no_witness,
    assembled_tx := coinbase_tx_witness }

/-! ## Header building and proof-of-work (`mining/header.rs`) -/

/-- The 32 bytes of the proof-of-work target constant
`00000ffff0000000…0`, big-endian. -/
def targetBytes : List Nat := [0x00, 0x00, 0x0f, 0xff, 0xf0] ++ List.replicate 27 0

/-- `BigUint::from_bytes_be` of the target constant. -/
def target : Nat := beToNat targetBytes

/-- The success test of the nonce loop: the double hash of the 80-byte
candidate (prefix plus little-endian nonce), read as a little-endian big
integer, is strictly below the target. -/
def hashBelowTarget (sha : List Nat → List Nat) (pre : List Nat) (nonce : Nat) : Prop :=
  leToNat (doubleHash sha (pre ++ leBytes 4 nonce)) < target

instance (sha : List Nat → List Nat) (pre : List Nat) (nonce : Nat) :
    Decidable (hashBelowTarget sha pre nonce) := by
  unfold hashBelowTarget; infer_instance

/-- The `for nonce in 0..=u32::MAX` loop of `mine_nonce`, with the
remaining iteration count explicit. -/
def mineNonceAux (sha : List Nat → List Nat) (pre : List Nat) :
    Nat → Nat → Option Nat
  | 0, _ => none
  | fuel + 1, nonce =>
    if hashBelowTarget sha pre nonce then some nonce
    else mineNonceAux sha pre fuel (nonce + 1)

/-- `mine_nonce`: scan all 2³² nonces in ascending order; `none` models
the `panic!("All nonces used in mining!")`. -/
def mine_nonce (sha : List Nat → List Nat) (block_header : List Nat) : Option Nat :=
  mineNonceAux sha block_header (2 ^ 32) 0

/-- The hard-coded previous block hash
`00000000000000000001901b9f3b6c7a0c34b20b29b950d0d8ffa36c63979c1c`
(display order; the header uses its byte reversal). -/
def prevBlockHash : List Nat :=
  [0x00, 0x00, 0x00, 0x00, 0x00, 0x00, 0x00, 0x00, 0x00, 0x01, 0x90, 0x1b,
   0x9f, 0x3b, 0x6c, 0x7a, 0x0c, 0x34, 0xb2, 0x0b, 0x29, 0xb9, 0x50, 0xd0,
   0xd8, 0xff, 0xa3, 0x6c, 0x63, 0x97, 0x9c, 0x1c]

/-- `construct_header`.  `time_sec` abstracts `SystemTime::now`
(truncated to `u32` by `leBytes 4`); `none` propagates the nonce-loop
panic.  The txid hex of each block transaction is decoded and reversed,
the coinbase txid is already in natural byte order. -/
def construct_header (sha : List Nat → List Nat) (time_sec : Nat)
    (block_transactions : List Transaction) (coinbase_tx : CoinbaseTxData) :
    Option (List Nat) :=
  let txids_bytes := coinbase_tx.txid_natural_bytes ::
    block_transactions.map fun tx => (hexDecodeD tx.meta.txid_hex).reverse
  let pre := [0x20, 0x00, 0x00, 0x00] ++ prevBlockHash.reverse
    ++ get_merkle_root sha txids_bytes ++ leBytes 4 time_sec ++ leBytes 4 0x1f00ffff
  (mine_nonce sha pre).map fun nonce => pre ++ leBytes 4 nonce

/-! ## Script interpreter (`validation/script.rs`)

The `VecDeque<Vec<u8>>` stack is a `List (List Nat)` with the deque's
BACK (the stack top, the only end the opcodes touch) at the list's head:
`push_back` is `cons`, `pop_back` takes the head, `get(len-2)` is the
second element. -/

/-- The script stack. -/
abbrev Stack := List (List Nat)

/-- The external cryptography the interpreter calls: SHA-256, RIPEMD-160
and `verify_sig_op_checksig` (DER parse, low-S normalization and
secp256k1 verification; its `Err` results and the pubkey-parse panic are
both `false` here, which is all the callers distinguish). -/
structure Crypto where
  sha256 : List Nat → List Nat
  ripemd160 : List Nat → List Nat
  verify : List Nat → List Nat → List Nat → Bool  -- message, pubkey, DER signature

/-- `BigInt::from_signed_bytes_le` (`decode_num` before the `i128`
conversion): little-endian two's complement, the top bit of the last
byte is the sign; the empty list is 0. -/
def decodeNumRaw (bs : List Nat) : Int :=
  if 128 ≤ bs.getLastD 0 then (leToNat bs : Int) - 2 ^ (8 * bs.length)
  else (leToNat bs : Int)

/-- `decode_num`: the source panics (`expect`) when the value does not
fit an `i128`. -/
def decode_num (bs : List Nat) : Except String Int :=
  let n := decodeNumRaw bs
  if n < -(2 ^ 127) ∨ 2 ^ 127 - 1 < n then
    .error "panic: number outside of i128 scope"
  else .ok n

/-- `as u32` on an `i128` (two's-complement truncation). -/
def u32cast (n : Int) : Nat := (n % 2 ^ 32).toNat

/-- `op_swap`. -/
def op_swap (stack : Stack) : Except String Stack :=
  match stack with
  | a :: b :: rest => .ok (b :: a :: rest)
  | _ => .error "OP_SWAP stack < 2"

/-- `op_equal`: pop two, push `[1]` on equality and the empty vector
otherwise. -/
def op_equal (stack : Stack) : Except String Stack :=
  match stack with
  | last :: second_last :: rest =>
    if last = second_last then .ok ([1] :: rest) else .ok ([] :: rest)
  | _ => .error "OP_EQUAL stack len < 2"

/-- `op_rot`: pops three and pushes them back as second, first, third
(top-to-bottom `t s f` becomes `t f s`). -/
def op_rot (stack : Stack) : Except String Stack :=
  match stack with
  | third_item :: second_item :: first_item :: rest =>
    .ok (third_item :: first_item :: second_item :: rest)
  | _ => .error "OP_ROT stack len < 3"

/-- `op_size`: push the 8 little-endian `usize` bytes of the top
element's length (the top is peeked, not popped). -/
def op_size (stack : Stack) : Except String Stack :=
  match stack with
  | last :: rest => .ok (leBytes 8 last.length :: last :: rest)
  | [] => .error "OP_SIZE stack empty"

/-- `op_over`: push a copy of the second-from-top. -/
def op_over (stack : Stack) : Except String Stack :=
  match stack with
  | a :: b :: rest => .ok (b :: a :: b :: rest)
  | _ => .error "OP_OVER stack < 2"

/-- `op_greaterthan`: pop `b` then `a`; push `[1]` when
`decode_num a > decode_num b`, else the empty vector. -/
def op_greaterthan (stack : Stack) : Except String Stack :=
  match stack with
  | b :: a :: rest => do
    let a' ← decode_num a
    let b' ← decode_num b
    if a' > b' then pure ([1] :: rest) else pure ([] :: rest)
  | _ => .error "OP_GREATERTHAN stack < 2"

/-- `op_equalverify`: `op_equal`, then fail on an empty result. -/
def op_equalverify (stack : Stack) : Except String Stack := do
  let s ← op_equal stack
  match s with
  | b :: rest => if b.isEmpty then .error "Equalverify false" else .ok rest
  | [] => .error "OP_EQUALVERIFY stack pop failed"

/-- `op_ifdup`: duplicate the top when it is non-empty. -/
def op_ifdup (stack : Stack) : Except String Stack :=
  match stack with
  | last :: rest =>
    if last.isEmpty then .ok (last :: rest) else .ok (last :: last :: rest)
  | [] => .error "OP_IFDUP length < 1"

/-- `op_depth`: push `varint(stack size)`. -/
def op_depth (stack : Stack) : Except String Stack :=
  .ok (varint stack.length :: stack)

/-- `op_verify`: pop the top, fail when it is empty. -/
def op_verify (stack : Stack) : Except String Stack :=
  match stack with
  | top :: rest => if top.isEmpty then .error "OP_VERIFY not valid" else .ok rest
  | [] => .error "OP_VERIFY popping top stack element failed"

/-- `op_pushnum`: push `[opcode − 80]`. -/
def op_pushnum (stack : Stack) (amount : Nat) : Except String Stack :=
  .ok ([amount - 80] :: stack)

/-- `op_checksequenceverify`: pops the top (the source's `pop_back`),
decodes it, and applies the BIP-68/112 relative-lock checks. -/
def op_checksequenceverify (stack : Stack) (txin : TxIn) (tx : Transaction) :
    Except String Stack :=
  match stack with
  | [] => .error "OP_CSV stack empty"
  | locktime_element :: rest =>
    match decode_num locktime_element with
    | .error e => .error e
    | .ok number =>
      if number < 0 ∨ locktime_element = [] then .error "OP_CSV number < 0 or empty"
      else
        let number := u32cast number
        if number &&& 2 ^ 31 = 0 then
          if tx.version < 2 then
            .error "OP_CSV Transaction version is less than 2."
          else if txin.sequence &&& 2 ^ 31 ≠ 0 then
            .error "OP_CSV Transaction input sequence number disable flag is set."
          else if number &&& 2 ^ 22 ≠ txin.sequence &&& 2 ^ 22 then
            .error "OP_CSV Relative lock-time types are not the same."
          else if number &&& 0xffff > txin.sequence &&& 0xffff then
            .error "OP_CSV Stack > Sequence LT"
          else .ok rest
        else .ok rest

/-- `op_checklocktimeverify`: pops the top (the source's `pop_back`),
decodes it as a signed number, casts it to `u32`, and fails on a
negative number, strictly-straddled locktime types, `locktime` below the
number, or a `0xFFFFFFFF` sequence; on success execution continues with
the top element consumed. -/
def op_checklocktimeverify (stack : Stack) (tx : Transaction) (txin : TxIn) :
    Except String Stack :=
  match stack with
  | [] => .error "OP_CLTV stack empty"
  | top_item :: rest =>
    match decode_num top_item with
    | .error e => .error e
    | .ok decoded_number =>
      if decoded_number < 0 then .error "OP_CLTV number < 0"
      else
        let decoded_number := u32cast decoded_number
        if (decoded_number < 500000000 ∧ tx.locktime > 500000000)
            ∨ (decoded_number > 500000000 ∧ tx.locktime < 500000000) then
          .error "OP_CLTV different locktime types"
        else if tx.locktime < decoded_number then
          .error "OP_CLTV locktime < stack num."
        else if txin.sequence = 0xffffffff then
          .error "OP_CLTV in sequence is 0xffffffff"
        else .ok rest

/-- `serialize_input_legacy`: every input's scriptsig slot is `0x00`
except the signing input, which carries its prevout scriptpubkey. -/
def serialize_input_legacy (input signing_txin : TxIn) : List Nat :=
  get_outpoint input
    ++ (if input = signing_txin then
          varint signing_txin.prevout.scriptpubkey.length
            ++ signing_txin.prevout.scriptpubkey
        else [0x00])
    ++ leBytes 4 input.sequence

/-- `serialize_legacy_tx`: the legacy sighash pre-image, double
hashed. -/
def serialize_legacy_tx (sha : List Nat → List Nat) (tx : Transaction)
    (signing_txin : TxIn) (sighash : Nat) : List Nat :=
  doubleHash sha
    (leBytesI32 tx.version
      ++ varint tx.vin.length
      ++ tx.vin.flatMap (fun tx_in => serialize_input_legacy tx_in signing_txin)
      ++ varint tx.vout.length
      ++ tx.vout.flatMap serialize_output
      ++ leBytes 4 tx.locktime
      ++ leBytes 4 sighash)

/-- `op_checksig`: pop pubkey then DER signature, strip the trailing
sighash byte (must be SIGHASH_ALL), build the legacy sighash and verify;
push `[1]` on success and the empty vector on cryptographic failure. -/
def op_checksig (c : Crypto) (stack : Stack) (tx : Transaction) (txin : TxIn) :
    Except String Stack :=
  match stack with
  | pubkey :: der_signature :: rest =>
    match der_signature.getLast? with
    | none => .error "OP_CHECKSIG popping sighash from signature failed"
    | some sighash =>
      if sighash ≠ 0x01 then .error "sighash not implemented"
      else
        match txin.in_type with
        | .P2PKH | .P2SH =>
          let message := serialize_legacy_tx c.sha256 tx txin sighash
          if c.verify message pubkey der_signature.dropLast then
            .ok ([1] :: rest)
          else .ok ([] :: rest)
        | _ => .error "panic: op_checksig unsupported txtype"
  | _ => .error "OP_CHECKSIG stack < 2"

/-- Pop `n` elements off the stack, in pop order (top first). -/
def popN : Nat → Stack → Option (List (List Nat) × Stack)
  | 0, s => some ([], s)
  | _ + 1, [] => none
  | n + 1, x :: s => (popN n s).map fun p => (x :: p.1, p.2)

/-- The inner retry loop of `op_checkmultisig`: try the remaining
pubkeys, popped from the deque's back, until one verifies; `none` is the
`break 'outer` when they run out. -/
def msTryPubkeys (c : Crypto) (message der : List Nat) :
    List (List Nat) → Option (List (List Nat))
  | [] => none
  | pk :: rest =>
    if c.verify message pk der then some rest else msTryPubkeys c message der rest

/-- The signature loop of `op_checkmultisig`: signatures in deque
iteration order (bottom-most first), pubkeys with the deque's back at
the head; returns the remaining signature count. -/
def msLoop (c : Crypto) (tx : Transaction) (txin : TxIn) :
    List (List Nat) → List (List Nat) → Nat → Except String Nat
  | [], _, k => .ok k
  | sig :: restSigs, pubkeys, k =>
    match sig.getLast? with
    | none => .error "OP_CHECKSIG popping sighash from signature failed"
    | some sighash =>
      if sighash ≠ 0x01 then .error "OP_CHECKMULTISIG sighash not implemented"
      else
        match txin.in_type with
        | .P2SH =>
          let message := serialize_legacy_tx c.sha256 tx txin sighash
          match msTryPubkeys c message sig.dropLast pubkeys with
          | some pubkeys' => msLoop c tx txin restSigs pubkeys' (k - 1)
          | none => .ok k
        | _ => .error "panic: op_checkmultisig unsupported txtype"

/-- `op_checkmultisig`: pop the pubkey count (first byte of the popped
element — indexing an empty element panics), the pubkeys, the signature
count, the signatures, and the historical extra element; verify the
signatures in original order against pubkeys from the deque's back,
skipping failures; push `[1]` when every signature was consumed. -/
def op_checkmultisig (c : Crypto) (stack : Stack) (tx : Transaction) (txin : TxIn) :
    Except String Stack :=
  match stack with
  | [] => .error "OP_CHECKMULTISIG error popping number of pubkeys"
  | pubkey_amount :: s1 =>
    match pubkey_amount with
    | [] => .error "panic: index out of bounds (pubkey amount)"
    | number_of_pubkeys :: _ =>
      match popN number_of_pubkeys s1 with
      | none => .error "OP_CHECKMULTISIG error popping pubkey from stack"
      | some (pubkeysPop, s2) =>
        match s2 with
        | [] => .error "OP_CHECKMULTISIG error popping number of signatures"
        | signature_amount :: s3 =>
          match signature_amount with
          | [] => .error "panic: index out of bounds (signature amount)"
          | number_of_signatures :: _ =>
            match popN number_of_signatures s3 with
            | none => .error "OP_CHECKMULTISIG error popping signature from stack"
            | some (sigsPop, s4) =>
              let s5 := s4.tail   -- the OP_CHECKMULTISIG bug: one extra pop, result ignored
              match msLoop c tx txin sigsPop.reverse pubkeysPop.reverse
                  number_of_signatures with
              | .error e => .error e
              | .ok remaining =>
                .ok ((if remaining = 0 then [1] else ([] : List Nat)) :: s5)

/-- `&script[start..start+len]` as a total function; the callers guard
the range exactly where the source would panic. -/
def listSlice (l : List Nat) (start len : Nat) : List Nat :=
  (l.drop start).take len

/-- The `while index < script.len()` dispatch loop of `evaluate_script`.
Push-data opcodes advance `index` by their data; the net advance for
`OP_PUSHDATA` of `a` length bytes and `n` data bytes is `a + 1 + n`
(which is also what the source's `usize` arithmetic produces for `n = 0`,
where `*index += amount - 1` wraps).  `panic:`-prefixed errors are
slice-out-of-range or unknown-opcode panics. -/
def execScript (c : Crypto) (tx : Transaction) (txin : TxIn) (script : List Nat) :
    Nat → Stack → Except String Stack
  | index, stack =>
  if h : index < script.length then
    let opcode := script.get ⟨index, h⟩
    if opcode = 0xa8 then
      match stack with
      | last :: rest => execScript c tx txin script (index + 1) (c.sha256 last :: rest)
      | [] => .error "OP_SHA256 stack empty"
    else if opcode = 0xa9 then
      match stack with
      | last :: rest =>
        execScript c tx txin script (index + 1) (c.ripemd160 (c.sha256 last) :: rest)
      | [] => .error "OP_HASH160 stack empty"
    else if opcode = 0x75 then
      match stack with
      | _ :: rest => execScript c tx txin script (index + 1) rest
      | [] => .error "OP_DROP stack empty"
    else if opcode = 0x7c then do
      let s ← op_swap stack
      execScript c tx txin script (index + 1) s
    else if opcode = 0x00 then
      execScript c tx txin script (index + 1) ([] :: stack)
    else if opcode = 0x76 then
      match stack with
      | last :: rest => execScript c tx txin script (index + 1) (last :: last :: rest)
      | [] => .error "OP_DUP stack empty."
    else if opcode = 0x87 then do
      let s ← op_equal stack
      execScript c tx txin script (index + 1) s
    else if opcode = 0x7b then do
      let s ← op_rot stack
      execScript c tx txin script (index + 1) s
    else if opcode = 0x82 then do
      let s ← op_size stack
      execScript c tx txin script (index + 1) s
    else if opcode = 0x78 then do
      let s ← op_over stack
      execScript c tx txin script (index + 1) s
    else if opcode = 0xa0 then do
      let s ← op_greaterthan stack
      execScript c tx txin script (index + 1) s
    else if opcode = 0x88 then do
      let s ← op_equalverify stack
      execScript c tx txin script (index + 1) s
    else if opcode = 0x73 then do
      let s ← op_ifdup stack
      execScript c tx txin script (index + 1) s
    else if opcode = 0xb2 then do
      let s ← op_checksequenceverify stack txin tx
      execScript c tx txin script (index + 1) s
    else if opcode = 0xb1 then do
      let s ← op_checklocktimeverify stack tx txin
      execScript c tx txin script (index + 1) s
    else if opcode = 0xac then do
      let s ← op_checksig c stack tx txin
      execScript c tx txin script (index + 1) s
    else if opcode = 0x74 then do
      let s ← op_depth stack
      execScript c tx txin script (index + 1) s
    else if opcode = 0xad then do
      let s ← op_checksig c stack tx txin
      let s ← op_verify s
      execScript c tx txin script (index + 1) s
    else if 0x51 ≤ opcode ∧ opcode ≤ 0x60 then do
      let s ← op_pushnum stack opcode
      execScript c tx txin script (index + 1) s
    else if opcode = 0x4f then
      execScript c tx txin script (index + 1) ([255] :: stack)
    else if 0x01 ≤ opcode ∧ opcode ≤ 0x4b then
      if index + opcode ≤ script.length then
        if index + 1 + opcode ≤ script.length then
          execScript c tx txin script (index + opcode + 1)
            (listSlice script (index + 1) opcode :: stack)
        else .error "panic: OP_PUSHBYTES slice out of range"
      else .error "OP_PUSHBYTES opcode out of range"
    else if opcode = 0x4c ∨ opcode = 0x4d ∨ opcode = 0x4e then
      let amount_bytes := if opcode = 0x4c then 1 else if opcode = 0x4d then 2 else 4
      if index + 1 + amount_bytes ≤ script.length then
        let amount := leToNat (listSlice script (index + 1) amount_bytes)
        if index + amount_bytes + 1 + amount ≤ script.length then
          execScript c tx txin script (index + amount_bytes + 1 + amount)
            (listSlice script (index + amount_bytes + 1) amount :: stack)
        else .error "panic: OP_PUSHDATA slice out of range"
      else .error "panic: get_pushdata_amount slice out of range"
    else if opcode = 0xae then do
      let s ← op_checkmultisig c stack tx txin
      execScript c tx txin script (index + 1) s
    else .error "panic: no script operator found"
  else .ok stack
  termination_by index => script.length - index
  decreasing_by all_goals omega

/-- `evaluate_script`: run the script on an empty stack; afterwards an
empty top element is invalid, while an empty stack (nothing to pop) or a
non-empty top is reported valid. -/
def evaluate_script (c : Crypto) (script : List Nat) (txin : TxIn)
    (tx : Transaction) : Except String Unit :=
  match execScript c tx txin script 0 [] with
  | .error e => .error e
  | .ok stack =>
    match stack with
    | [] => .ok ()
    | last :: _ => if last.isEmpty then .error "SCRIPT INVALID" else .ok ()

/-! ## Block output (`mining/mod.rs::return_block`,
`main.rs::output_block`) -/

/-- `Block` (`mining/mod.rs`). -/
structure Block where
  header_hex : String
  coinbase_tx_hex : String
  txids_hex : List String
  deriving DecidableEq, Repr

/-- `return_block`: hex-encodes header and coinbase and lists the
coinbase txid followed by every block transaction's txid. -/
def return_block (block_header_bytes : List Nat) (coinbase_tx : CoinbaseTxData)
    (transactions : List Transaction) : Block :=
  { header_hex := hexEncode block_header_bytes,
    coinbase_tx_hex := hexEncode coinbase_tx.assembled_tx,
    txids_hex := coinbase_tx.txid_hex :: transactions.map (·.meta.txid_hex) }

/-- The txid loop of `output_block`: `writeln!` (append a newline) for
every element except the last, which is written with `write!`. -/
def writeTxids : List String → String
  | [] => ""
  | [t] => t
  | t :: rest => t ++ "\n" ++ writeTxids rest

/-- `output_block`: the full text written to `output.txt` — header line,
coinbase line, then the txid lines with no trailing newline. -/
def output_block (mined_block : Block) : String :=
  mined_block.header_hex ++ "\n" ++ mined_block.coinbase_tx_hex ++ "\n"
    ++ writeTxids mined_block.txids_hex

/-! ## Concrete instances used by witnesses and counterexamples -/

/-- A trivial stand-in for SHA-256 mapping everything to `[]`; the
theorems hold for every hash function, so witnesses may pick this one. -/
def shaZero : List Nat → List Nat := fun _ => []

/-- A stand-in for SHA-256 mapping everything to 32 zero bytes. -/
def sha32 : List Nat → List Nat := fun _ => zeros32

/-- A file-stem function that always answers the empty string. -/
def stemEmpty : String → Option String := fun _ => some ""

/-- Scriptsig of 1,073,741,760 zero bytes: chosen so that the wrapping
`u32` weight computation yields exactly 0. -/
def monsterScriptsig : List Nat := List.replicate 1073741760 0

/-- The single input of the overflow transaction. -/
def monsterIn : TxIn :=
  { in_type := .UNKNOWN "x", txid := zeros32, vout := 0,
    scriptsig := some monsterScriptsig,
    prevout := { scriptpubkey := [], scriptpubkey_type := "", value := 0 },
    witness := none, is_coinbase := false, sequence := 0 }

/-- The single output of the overflow transaction. -/
def monsterOut : TxOut :=
  { scriptpubkey := none, scriptpubkey_type := "", value := 0 }

/-- A transaction whose serialized size makes the wrapping `u32` weight
computation come out as 0. -/
def monsterTx : Transaction :=
  { meta := { json_path := some "f" }, version := 1, locktime := 0,
    vin := [monsterIn], vout := [monsterOut] }

/-- The header that `construct_header` produces for an empty block under
`sha32` at time 0 (nonce 0 already hits the target, since the all-zero
hash is below it). -/
def c9Header : List Nat :=
  [0x20, 0x00, 0x00, 0x00] ++ prevBlockHash.reverse ++ zeros32
    ++ leBytes 4 0 ++ leBytes 4 0x1f00ffff ++ leBytes 4 0

/-- A trivial crypto instantiation for witnesses (hashes return `[]`,
verification always fails). -/
def cryptoZero : Crypto :=
  { sha256 := fun _ => [], ripemd160 := fun _ => [], verify := fun _ _ _ => false }

/-- A transaction with locktime exactly 500,000,000 (the threshold). -/
def cltvTx : Transaction :=
  { version := 2, locktime := 500000000, vin := [], vout := [] }

/-- Child transaction `c` whose parent `p` starts behind it. -/
def txC : Transaction :=
  { meta := { txid_hex := "c", parents := some ["p"] },
    version := 2, locktime := 0, vin := [], vout := [] }

/-- A parentless transaction `y`. -/
def txY : Transaction :=
  { meta := { txid_hex := "y" }, version := 2, locktime := 0, vin := [], vout := [] }

/-- Transaction `p`, parent of `c` and child of `y`. -/
def txP : Transaction :=
  { meta := { txid_hex := "p", parents := some ["y"] },
    version := 2, locktime := 0, vin := [], vout := [] }

/-- A transaction that lists its own txid as a parent. -/
def txSelf : Transaction :=
  { meta := { txid_hex := "s", parents := some ["s"], weight := 1 },
    version := 2, locktime := 0, vin := [], vout := [] }

/-- Two honestly-parented transactions for the termination witness:
`w2` is the parent of `w1` but sorts behind it. -/
def txW1 : Transaction :=
  { meta := { txid_hex := "w1", parents := some ["w2"], packet_data := { packet_feerate_weight := 10 } },
    version := 2, locktime := 0, vin := [], vout := [] }

/-- The parent of `txW1`, with the lower packet feerate. -/
def txW2 : Transaction :=
  { meta := { txid_hex := "w2", packet_data := { packet_feerate_weight := 3 } },
    version := 2, locktime := 0, vin := [], vout := [] }

/-- One half of a two-transaction parent cycle: `a` lists `b` as parent. -/
def txA : Transaction :=
  { meta := { txid_hex := "a", parents := some ["b"] },
    version := 2, locktime := 0, vin := [], vout := [] }

/-- The other half of the cycle: `b` lists `a` as parent. -/
def txB : Transaction :=
  { meta := { txid_hex := "b", parents := some ["a"] },
    version := 2, locktime := 0, vin := [], vout := [] }

/-- A small, ordinary input. -/
def smallIn : TxIn :=
  { in_type := .P2PKH, txid := zeros32, vout := 0, scriptsig := none,
    prevout := { scriptpubkey := [], scriptpubkey_type := "p2pkh", value := 7 },
    witness := none, is_coinbase := false, sequence := 0 }

/-- A small, ordinary output. -/
def smallOut : TxOut :=
  { scriptpubkey := none, scriptpubkey_type := "p2pkh", value := 3 }

/-- A small, ordinary transaction (no wrapping anywhere). -/
def smallTx : Transaction :=
  { meta := { json_path := some "f" }, version := 1, locktime := 0,
    vin := [smallIn], vout := [smallOut] }

/-! # Theorems -/

theorem foldl_add64 (l : List Nat) (a : Nat) (ha : a < 2 ^ 64) :
    l.foldl add64 a = (a + l.sum) % 2 ^ 64 := by
  induction l generalizing a with
  | nil =>
    simp only [List.foldl_nil, List.sum_nil, Nat.add_zero]
    omega
  | cons x xs ih =>
    rw [List.foldl_cons, ih (add64 a x) (Nat.mod_lt _ (by norm_num)), List.sum_cons]
    simp [add64, Nat.add_assoc, Nat.mod_add_mod]

theorem inputSum_eq (vin : List TxIn) :
    inputSum vin = (vin.map (·.prevout.value)).sum % 2 ^ 64 := by
  rw [inputSum, show (fun acc txin => add64 acc txin.prevout.value)
      = fun acc v => add64 acc ((fun t : TxIn => t.prevout.value) v) from rfl,
    ← List.foldl_map, foldl_add64 _ 0 (by norm_num), Nat.zero_add]

theorem outputSum_eq (vout : List TxOut) :
    outputSum vout = (vout.map (·.value)).sum % 2 ^ 64 := by
  rw [outputSum, show (fun acc txout => add64 acc txout.value)
      = fun acc v => add64 acc ((fun t : TxOut => t.value) v) from rfl,
    ← List.foldl_map, foldl_add64 _ 0 (by norm_num), Nat.zero_add]

/-- C5: `validate_values_and_set_fee` fails exactly for an empty input or
output list, an input sum below the output sum, or either sum above
20,999,999 × 10⁸ (sums taken in wrapping unsigned 64-bit arithmetic, as
the claim states); otherwise it succeeds and stores the difference of the
sums as the fee.  Stated as a closed equation, so it covers both the
"returns false" and the "returns true and sets fee" halves. -/
theorem validate_values_and_set_fee_spec (tx : Transaction) :
    validate_values_and_set_fee tx =
      if tx.vin = [] ∨ tx.vout = [] ∨
          (tx.vin.map (·.prevout.value)).sum % 2 ^ 64 <
            (tx.vout.map (·.value)).sum % 2 ^ 64 ∨
          20999999 * 100000000 < (tx.vin.map (·.prevout.value)).sum % 2 ^ 64 ∨
          20999999 * 100000000 < (tx.vout.map (·.value)).sum % 2 ^ 64 then
        (false, tx)
      else
        (true, { tx with meta := { tx.meta with
          fee := (tx.vin.map (·.prevout.value)).sum % 2 ^ 64
                   - (tx.vout.map (·.value)).sum % 2 ^ 64 } }) := by
  simp only [validate_values_and_set_fee, inputSum_eq, outputSum_eq]
  split_ifs <;>
    first
      | rfl
      | (exfalso; simp_all [List.isEmpty_iff]) <;> omega

theorem cutSizeGo_eq_greedy (b : Nat) :
    ∀ l : List Transaction, (∀ tx ∈ l, tx.meta.weight < 2 ^ 63) →
      cutSizeGo (b : Int) l = greedyCutSpec b l := by
  intro l
  induction l generalizing b with
  | nil => intro _; rfl
  | cons tx rest ih =>
    intro h
    have hw : tx.meta.weight < 2 ^ 63 := h tx (List.mem_cons_self _ _)
    have hcast : i64cast tx.meta.weight = (tx.meta.weight : Int) := by
      unfold i64cast; rw [if_pos hw]
    by_cases hfit : tx.meta.weight < b
    · have hsub : (b : Int) - (tx.meta.weight : Int) = ((b - tx.meta.weight : Nat) : Int) := by
        omega
      simp only [cutSizeGo, greedyCutSpec, hcast, hsub]
      rw [if_pos (by exact_mod_cast hfit), if_pos hfit,
        ih (b - tx.meta.weight) (fun t ht => h t (List.mem_cons_of_mem _ ht))]
    · simp only [cutSizeGo, greedyCutSpec, hcast]
      rw [if_neg (by exact_mod_cast hfit), if_neg hfit]

theorem greedyCutSpec_weight_le (b : Nat) :
    ∀ l : List Transaction, ((greedyCutSpec b l).map (·.meta.weight)).sum ≤ b := by
  intro l
  induction l generalizing b with
  | nil => simp [greedyCutSpec]
  | cons tx rest ih =>
    by_cases hfit : tx.meta.weight < b
    · simp only [greedyCutSpec, if_pos hfit, List.map_cons, List.sum_cons]
      have := ih (b - tx.meta.weight)
      omega
    · simp [greedyCutSpec, if_neg hfit]


/-- C3: `cut_size` is the greedy prefix under a budget of 3,970,000 weight
units with a strict greater-than test (so a transaction whose weight
exactly equals the remaining budget is excluded, and the cut stops at the
first transaction that does not fit), and the total weight of the
returned transactions is at most 3,970,000.  The hypothesis
`weight < 2 ^ 63` formalises "with weights set": `meta.weight` is only
ever assigned by `validate_and_set_weight`, which stores a `u32` value
(at most 3,999,280), so the `as i64` cast in the source is the
identity. -/
theorem cut_size_is_greedy_prefix (l : List Transaction)
    (h : ∀ tx ∈ l, tx.meta.weight < 2 ^ 63) :
    cut_size l = greedyCutSpec 3970000 l ∧
      ((cut_size l).map (·.meta.weight)).sum ≤ 3970000 := by
  have heq : cut_size l = greedyCutSpec 3970000 l := by
    have := cutSizeGo_eq_greedy 3970000 l h
    simpa [cut_size] using this
  exact ⟨heq, by rw [heq]; exact greedyCutSpec_weight_le 3970000 l⟩

/-- C3 witness: the theorem applied to a concrete one-element list; the
equality with the greedy cut shows the exactly-fitting transaction is
excluded. -/
theorem cut_size_is_greedy_prefix_witness :
    (∀ tx ∈ [exactFitTx], tx.meta.weight < 2 ^ 63) ∧
      (cut_size [exactFitTx] = greedyCutSpec 3970000 [exactFitTx] ∧
        ((cut_size [exactFitTx]).map (·.meta.weight)).sum ≤ 3970000) ∧
      cut_size [exactFitTx] = [] :=
  ⟨by decide, cut_size_is_greedy_prefix [exactFitTx] (by decide), by decide⟩


/-! ## C10: weight lower bound and division safety -/

theorem leBytes_length (k n : Nat) : (leBytes k n).length = k := by
  induction k generalizing n with
  | zero => rfl
  | succ k ih => simp [leBytes, ih]

theorem varint_length_le (n : Nat) : (varint n).length ≤ 9 := by
  unfold varint
  split_ifs <;> simp [leBytes_length]

theorem foldl_add32_map {α : Type} (f : α → Nat) (l : List α) :
    ∀ a : Nat, a + (l.map f).sum < 2 ^ 32 →
      l.foldl (fun acc x => add32 acc (f x % 2 ^ 32)) a = a + (l.map f).sum := by
  induction l with
  | nil => intro a _; simp
  | cons x xs ih =>
    intro a h
    simp only [List.foldl_cons, List.map_cons, List.sum_cons] at *
    have hx : f x % 2 ^ 32 = f x := Nat.mod_eq_of_lt (by omega)
    have ha : add32 a (f x % 2 ^ 32) = a + f x := by
      rw [hx]; exact Nat.mod_eq_of_lt (by omega)
    rw [ha, ih (a + f x) (by omega)]
    omega

theorem input_weight_sum_eq (tx : Transaction) (h : inputBytes tx < 2 ^ 32) :
    input_weight_sum tx = inputBytes tx := by
  unfold input_weight_sum
  unfold inputBytes at h ⊢
  have h0 : add32 0 ((varint tx.vin.length).length % 2 ^ 32)
      = (varint tx.vin.length).length := by
    have := varint_length_le tx.vin.length
    simp only [add32, Nat.zero_add]
    omega
  rw [h0]
  exact foldl_add32_map (fun i => (serialize_input i).length) tx.vin _ (by omega)

theorem output_weight_sum_eq (tx : Transaction) (h : outputBytes tx < 2 ^ 32) :
    output_weight_sum tx = outputBytes tx := by
  unfold output_weight_sum
  unfold outputBytes at h ⊢
  have h0 : add32 0 ((varint tx.vout.length).length % 2 ^ 32)
      = (varint tx.vout.length).length := by
    have := varint_length_le tx.vout.length
    simp only [add32, Nat.zero_add]
    omega
  rw [h0]
  exact foldl_add32_map (fun o => (serialize_output o).length) tx.vout _ (by omega)

theorem witness_foldl_eq (vin : List TxIn) :
    ∀ a : Nat,
      a + (vin.map fun i => ((i.witness.getD []).map List.length).sum).sum < 2 ^ 32 →
      vin.foldl
          (fun acc txin =>
            match txin.witness with
            | some ws => ws.foldl (fun x w => add32 x (w.length % 2 ^ 32)) acc
            | none => acc) a
        = a + (vin.map fun i => ((i.witness.getD []).map List.length).sum).sum := by
  induction vin with
  | nil => intro a _; simp
  | cons i rest ih =>
    intro a h
    simp only [List.foldl_cons, List.map_cons, List.sum_cons] at *
    cases hw : i.witness with
    | none =>
      simp only [hw, Option.getD_none, List.map_nil, List.sum_nil, Nat.zero_add] at h ⊢
      rw [ih a (by omega)]
    | some ws =>
      simp only [hw, Option.getD_some] at h ⊢
      have hinner : ws.foldl (fun x w => add32 x (w.length % 2 ^ 32)) a
          = a + (ws.map List.length).sum :=
        foldl_add32_map List.length ws a (by omega)
      rw [hinner, ih _ (by omega)]
      omega

theorem witness_weight_sum_eq (tx : Transaction) (h : witnessBytes tx < 2 ^ 32) :
    witness_weight_sum tx = witnessBytes tx := by
  unfold witness_weight_sum witnessBytes at *
  simpa using witness_foldl_eq tx.vin 0 (by omega)

theorem calculate_weight_eq (tx : Transaction) (h : plainWeight tx < 2 ^ 32) :
    calculate_weight tx = plainWeight tx := by
  by_cases hsg : is_segwit tx = true
  · simp only [plainWeight, hsg, if_true] at h ⊢
    have hwit := witness_weight_sum_eq tx (by omega)
    have hin := input_weight_sum_eq tx (by omega)
    have hout := output_weight_sum_eq tx (by omega)
    simp only [calculate_weight, hsg, if_true, hwit, hin, hout, add32]
    omega
  · have hsg' : is_segwit tx = false := by simpa using hsg
    simp only [plainWeight, hsg', Bool.false_eq_true, if_false] at h ⊢
    have hin := input_weight_sum_eq tx (by omega)
    have hout := output_weight_sum_eq tx (by omega)
    simp only [calculate_weight, hsg', Bool.false_eq_true, if_false, hin, hout, add32]
    omega

theorem plainWeight_ge_32 (tx : Transaction) : 32 ≤ plainWeight tx := by
  unfold plainWeight
  split_ifs <;> omega

theorem validate_values_preserves_structure (tx : Transaction) :
    ((validate_values_and_set_fee tx).2).vin = tx.vin ∧
      ((validate_values_and_set_fee tx).2).vout = tx.vout := by
  unfold validate_values_and_set_fee
  by_cases h1 : (tx.vin.isEmpty || tx.vout.isEmpty) = true
  · simp [h1]
  · by_cases h2 : inputSum tx.vin < outputSum tx.vout
    · simp [h1, h2]
    · by_cases h3 : inputSum tx.vin > 20999999 * 100000000 ∨
          outputSum tx.vout > 20999999 * 100000000
      · simp [h1, h2, h3]
      · simp [h1, h2, h3]

theorem validate_txid_preserves_structure (sha : List Nat → List Nat)
    (stemOf : String → Option String) (tx : Transaction) :
    ((validate_txid_hash_filename sha stemOf tx).2).vin = tx.vin ∧
      ((validate_txid_hash_filename sha stemOf tx).2).vout = tx.vout := by
  unfold validate_txid_hash_filename
  cases hjp : tx.meta.json_path with
  | none => simp
  | some p => cases hsp : stemOf p <;> simp [hsp]

theorem plainWeight_congr (tx tx' : Transaction)
    (h1 : tx'.vin = tx.vin) (h2 : tx'.vout = tx.vout) :
    plainWeight tx' = plainWeight tx := by
  unfold plainWeight inputBytes outputBytes witnessBytes is_segwit
  rw [h1, h2]

/-- C10 (amended): provided the exact weight total fits in a `u32` (so no
wrapping occurs — true of any transaction the program can realistically
see), the weight stored by `validate_and_set_weight` is at least 32
(version and locktime alone contribute 4·4 + 4·4), `validate_feerate`
never divides by zero on it, and the `sanity_checks` chain (values →
identifier → weight → feerate, in source order) never reaches the
division-by-zero panic. -/
theorem sanity_checks_division_safe (sha : List Nat → List Nat)
    (stemOf : String → Option String) (tx : Transaction)
    (h : plainWeight tx < 2 ^ 32) :
    (∀ tx', validate_and_set_weight tx = (true, tx') →
        32 ≤ tx'.meta.weight ∧ validate_feerate tx' ≠ none) ∧
      sanity_checks sha stemOf tx ≠ none := by
  have hw : calculate_weight tx = plainWeight tx := calculate_weight_eq tx h
  have hmain : ∀ tx'' : Transaction, plainWeight tx'' < 2 ^ 32 →
      ∀ tx', validate_and_set_weight tx'' = (true, tx') →
        32 ≤ tx'.meta.weight ∧ validate_feerate tx' ≠ none := by
    intro tx'' h'' tx' hval
    have hw'' : calculate_weight tx'' = plainWeight tx'' := calculate_weight_eq tx'' h''
    simp only [validate_and_set_weight] at hval
    split_ifs at hval with hbig
    · exact absurd hval (by simp)
    · have : tx' = { tx'' with meta := { tx''.meta with weight := calculate_weight tx'' } } := by
        have := congrArg Prod.snd hval
        simpa using this.symm
      subst this
      have h32 : 32 ≤ calculate_weight tx'' := by
        rw [hw'']; exact plainWeight_ge_32 tx''
      refine ⟨h32, ?_⟩
      unfold validate_feerate
      have : calculate_weight tx'' / 4 ≠ 0 := by omega
      simp only [this, if_false]
      split_ifs <;> simp
  refine ⟨hmain tx h, ?_⟩
  unfold sanity_checks
  cases hv : validate_values_and_set_fee tx with
  | mk ok₁ tx₁ =>
    cases ok₁ with
    | false => simp
    | true =>
      simp only [Bool.not_true, Bool.false_eq_true, if_false]
      have hpres₁ : tx₁.vin = tx.vin ∧ tx₁.vout = tx.vout := by
        have := validate_values_preserves_structure tx
        rw [hv] at this; exact this
      cases ht : validate_txid_hash_filename sha stemOf tx₁ with
      | mk ok₂ tx₂ =>
        cases ok₂ with
        | false => simp
        | true =>
          simp only [Bool.not_true, Bool.false_eq_true, if_false]
          have hpres₂ : tx₂.vin = tx₁.vin ∧ tx₂.vout = tx₁.vout := by
            have := validate_txid_preserves_structure sha stemOf tx₁
            rw [ht] at this; exact this
          have h₂ : plainWeight tx₂ < 2 ^ 32 := by
            rw [plainWeight_congr tx tx₂
              (by rw [hpres₂.1, hpres₁.1]) (by rw [hpres₂.2, hpres₁.2])]
            exact h
          cases hw2 : validate_and_set_weight tx₂ with
          | mk ok₃ tx₃ =>
            cases ok₃ with
            | false => simp
            | true =>
              simp only [Bool.not_true, Bool.false_eq_true, if_false]
              have := (hmain tx₂ h₂ tx₃ hw2).2
              cases hfr : validate_feerate tx₃ with
              | none => exact absurd hfr this
              | some b => cases b <;> simp

/-- C10 witness: a small transaction instantiating the division-safety
theorem. -/
theorem sanity_checks_division_safe_witness :
    plainWeight smallTx < 2 ^ 32 ∧
      ((∀ tx', validate_and_set_weight smallTx = (true, tx') →
          32 ≤ tx'.meta.weight ∧ validate_feerate tx' ≠ none) ∧
        sanity_checks shaZero stemEmpty smallTx ≠ none) :=
  ⟨by decide, sanity_checks_division_safe shaZero stemEmpty smallTx (by decide)⟩

/-! ## Merkle-loop model adequacy: the fuel `get_merkle_root` passes is
always enough for the `while` loop to reach a single root -/

theorem hashPairs_length (sha : List Nat → List Nat) :
    ∀ l : List (List Nat), (hashPairs sha l).length = l.length / 2
  | [] => by simp [hashPairs]
  | [_] => by simp [hashPairs]
  | a :: b :: rest => by
    show (doubleHash sha (a ++ b) :: hashPairs sha rest).length = _
    rw [List.length_cons, hashPairs_length sha rest]
    simp only [List.length_cons]
    omega

theorem merkleLoop_length_le_one (sha : List Nat → List Nat) :
    ∀ (fuel : Nat) (l : List (List Nat)), l.length ≤ fuel →
      (merkleLoop sha fuel l).length ≤ 1 := by
  intro fuel
  induction fuel with
  | zero =>
    intro l h
    have : l = [] := List.eq_nil_of_length_eq_zero (by omega)
    simp [this, merkleLoop]
  | succ fuel ih =>
    intro l h
    rw [show merkleLoop sha (fuel + 1) l
      = if 1 < l.length then
          merkleLoop sha fuel
            (hashPairs sha (if l.length % 2 ≠ 0 then l ++ [l.getLastD []] else l))
        else l from rfl]
    by_cases h1 : 1 < l.length
    · rw [if_pos h1]
      apply ih
      by_cases hodd : l.length % 2 ≠ 0
      · rw [if_pos hodd, hashPairs_length]
        simp only [List.length_append, List.length_cons, List.length_nil]
        omega
      · rw [if_neg hodd, hashPairs_length]
        omega
    · rw [if_neg h1]
      omega

/-! ## C6: the proof-of-work nonce search -/

theorem mineNonceAux_some_iff (sha : List Nat → List Nat) (pre : List Nat) :
    ∀ (fuel start n : Nat),
      mineNonceAux sha pre fuel start = some n ↔
        start ≤ n ∧ n < start + fuel ∧ hashBelowTarget sha pre n ∧
          ∀ m, start ≤ m → m < n → ¬ hashBelowTarget sha pre m := by
  intro fuel
  induction fuel with
  | zero =>
    intro start n
    simp only [mineNonceAux]
    constructor
    · intro h; simp at h
    · intro ⟨_, h2, _, _⟩; omega
  | succ fuel ih =>
    intro start n
    rw [show mineNonceAux sha pre (fuel + 1) start
      = if hashBelowTarget sha pre start then some start
        else mineNonceAux sha pre fuel (start + 1) from rfl]
    by_cases hc : hashBelowTarget sha pre start
    · rw [if_pos hc]
      simp only [Option.some.injEq]
      constructor
      · rintro rfl
        exact ⟨Nat.le_refl _, by omega, hc, fun m h1 h2 => by omega⟩
      · rintro ⟨h1, _, _, h4⟩
        by_contra hne
        exact h4 start (Nat.le_refl _) (by omega) hc
    · rw [if_neg hc, ih (start + 1) n]
      constructor
      · rintro ⟨h1, h2, h3, h4⟩
        refine ⟨by omega, by omega, h3, fun m hm1 hm2 => ?_⟩
        rcases Nat.eq_or_lt_of_le hm1 with rfl | hlt
        · exact hc
        · exact h4 m hlt hm2
      · rintro ⟨h1, h2, h3, h4⟩
        have hne : n ≠ start := fun he => hc (he ▸ h3)
        exact ⟨by omega, by omega, h3, fun m hm1 hm2 => h4 m (by omega) hm2⟩

theorem mineNonceAux_none_iff (sha : List Nat → List Nat) (pre : List Nat) :
    ∀ (fuel start : Nat),
      mineNonceAux sha pre fuel start = none ↔
        ∀ m, start ≤ m → m < start + fuel → ¬ hashBelowTarget sha pre m := by
  intro fuel
  induction fuel with
  | zero =>
    intro start
    simp only [mineNonceAux, true_iff]
    intro m h1 h2; omega
  | succ fuel ih =>
    intro start
    rw [show mineNonceAux sha pre (fuel + 1) start
      = if hashBelowTarget sha pre start then some start
        else mineNonceAux sha pre fuel (start + 1) from rfl]
    by_cases hc : hashBelowTarget sha pre start
    · rw [if_pos hc]
      constructor
      · intro h; simp at h
      · intro h; exact absurd hc (h start (Nat.le_refl _) (by omega))
    · rw [if_neg hc, ih (start + 1)]
      constructor
      · intro h m hm1 hm2
        rcases Nat.eq_or_lt_of_le hm1 with rfl | hlt
        · exact hc
        · exact h m hlt (by omega)
      · intro h m hm1 hm2
        exact h m (by omega) (by omega)

/-- C6: `mine_nonce` returns the numerically smallest nonce in
`0..=u32::MAX` whose 80-byte-header double hash, read little-endian, is
strictly below the big-endian target `00000ffff0…0`; when no nonce in the
range qualifies it fails (the `panic!`, modelled by `none`).  The hash is
an arbitrary parameter (the source fixes it to SHA-256), and the prefix
is arbitrary (the source always passes the 76-byte header prefix). -/
theorem mine_nonce_finds_smallest_nonce (sha : List Nat → List Nat)
    (pre : List Nat) (n : Nat) :
    (mine_nonce sha pre = some n ↔
      n < 2 ^ 32 ∧ hashBelowTarget sha pre n ∧
        ∀ m < n, ¬ hashBelowTarget sha pre m) ∧
    (mine_nonce sha pre = none ↔ ∀ m < 2 ^ 32, ¬ hashBelowTarget sha pre m) := by
  constructor
  · rw [mine_nonce, mineNonceAux_some_iff sha pre (2 ^ 32) 0 n]
    constructor
    · rintro ⟨_, h2, h3, h4⟩
      exact ⟨by omega, h3, fun m hm => h4 m (Nat.zero_le _) hm⟩
    · rintro ⟨h1, h2, h3⟩
      exact ⟨Nat.zero_le _, by omega, h2, fun m _ hm => h3 m hm⟩
  · rw [mine_nonce, mineNonceAux_none_iff sha pre (2 ^ 32) 0]
    constructor
    · intro h m hm
      exact h m (Nat.zero_le _) (by omega)
    · intro h m _ hm
      exact h m (by omega)

/-! ## C9: single-element merkle root and the empty block -/

/-- C9: `get_merkle_root` on a one-element list returns the element
unchanged — for every hash function, so no hashing can be involved;
consequently for a block of zero non-coinbase transactions the wtxid
merkle root used for the witness commitment is the 32 zero bytes, and
the merkle-root field of the constructed header (bytes 36..68) is exactly
the coinbase txid bytes. -/
theorem merkle_root_singleton_spec (sha : List Nat → List Nat) :
    (∀ x : List Nat, get_merkle_root sha [x] = x) ∧
    wtxid_merkle_root sha [] = zeros32 ∧
    (∀ (time : Nat) (cb : CoinbaseTxData) (h : List Nat),
      construct_header sha time [] cb = some h →
        ∃ nonce, h = [0x20, 0x00, 0x00, 0x00] ++ prevBlockHash.reverse
          ++ cb.txid_natural_bytes ++ leBytes 4 time
          ++ leBytes 4 0x1f00ffff ++ leBytes 4 nonce) := by
  have hsingle : ∀ x : List Nat, get_merkle_root sha [x] = x := fun x => rfl
  refine ⟨hsingle, hsingle zeros32, ?_⟩
  intro time cb h hh
  unfold construct_header at hh
  simp only [List.map_nil] at hh
  cases hmn : mine_nonce sha ([0x20, 0x00, 0x00, 0x00] ++ prevBlockHash.reverse
      ++ get_merkle_root sha [cb.txid_natural_bytes] ++ leBytes 4 time
      ++ leBytes 4 0x1f00ffff) with
  | none => rw [hmn] at hh; cases hh
  | some nonce =>
    rw [hmn] at hh
    simp only [Option.map_some', Option.some.injEq] at hh
    exact ⟨nonce, by rw [← hh, hsingle cb.txid_natural_bytes]⟩

/-- C9 witness: the empty block built with the all-zeros hash stand-in;
nonce 0 succeeds at once and the header carries the coinbase txid bytes
as its merkle-root field. -/
theorem merkle_root_singleton_spec_witness :
    construct_header sha32 0 [] (assemble_coinbase_transaction sha32 []) = some c9Header ∧
      (∃ nonce, c9Header = [0x20, 0x00, 0x00, 0x00] ++ prevBlockHash.reverse
        ++ (assemble_coinbase_transaction sha32 []).txid_natural_bytes ++ leBytes 4 0
        ++ leBytes 4 0x1f00ffff ++ leBytes 4 nonce) :=
  ⟨by decide, (merkle_root_singleton_spec sha32).2.2 0
    (assemble_coinbase_transaction sha32 []) c9Header (by decide)⟩

/-! ## C1: the output file -/

theorem intercalate_go_spec (s : String) :
    ∀ (as : List String) (a acc : String),
      String.intercalate.go acc s (a :: as) = acc ++ s ++ String.intercalate.go a s as := by
  intro as
  induction as with
  | nil => intro a acc; rfl
  | cons b bs ih =>
    intro a acc
    show String.intercalate.go (acc ++ s ++ a) s (b :: bs) = _
    rw [ih b (acc ++ s ++ a), ih b a]
    simp [String.append_assoc]

theorem writeTxids_eq_intercalate :
    ∀ l : List String, writeTxids l = String.intercalate "\n" l
  | [] => rfl
  | [_] => rfl
  | t₁ :: t₂ :: rest => by
    show t₁ ++ "\n" ++ writeTxids (t₂ :: rest) = String.intercalate.go t₁ "\n" (t₂ :: rest)
    rw [writeTxids_eq_intercalate (t₂ :: rest), intercalate_go_spec "\n" rest t₂ t₁]
    rfl

/-- C1 (amended): the output file is the header hex line, the coinbase
hex line, and then — newline-separated, with no trailing newline — the
**coinbase txid** followed by the txids of the sorter-selected
transactions in order; for an empty selection exactly one txid line (the
coinbase's) follows the coinbase line. -/
theorem output_block_lines (block_header_bytes : List Nat)
    (coinbase_tx : CoinbaseTxData) (transactions : List Transaction) :
    output_block (return_block block_header_bytes coinbase_tx transactions)
      = hexEncode block_header_bytes ++ "\n"
        ++ hexEncode coinbase_tx.assembled_tx ++ "\n"
        ++ String.intercalate "\n"
            (coinbase_tx.txid_hex :: transactions.map (·.meta.txid_hex)) := by
  unfold output_block return_block
  rw [writeTxids_eq_intercalate]

/-- C1 counterexample: for an empty selection the file does not end after
the coinbase hex line — after the second newline comes a non-empty third
line holding the coinbase txid (64 hex characters), contradicting "no
txid lines follow the coinbase line". -/
theorem output_block_third_line_counterexample :
    output_block (return_block [] (assemble_coinbase_transaction sha32 []) [])
      = hexEncode [] ++ "\n"
        ++ hexEncode (assemble_coinbase_transaction sha32 []).assembled_tx ++ "\n"
        ++ (assemble_coinbase_transaction sha32 []).txid_hex ∧
      (assemble_coinbase_transaction sha32 []).txid_hex ≠ "" ∧
      ((assemble_coinbase_transaction sha32 []).txid_hex).length = 64 := by
  refine ⟨rfl, ?_, ?_⟩
  · decide
  · decide

/-! ## C2: the script success condition -/

/-- C2 (amended): when script execution reaches the end of the script
without an opcode error, leaving final stack `S`, `evaluate_script`
reports the script valid iff `S` is empty or its top element is a
non-empty byte vector; only a non-empty stack whose top element is empty
makes the script invalid (an entirely empty stack is reported VALID —
the final `if let Some(..) = stack.pop_back()` check is simply
skipped). -/
theorem evaluate_script_success_condition (c : Crypto) (tx : Transaction)
    (txin : TxIn) (script : List Nat) (S : Stack)
    (h : execScript c tx txin script 0 [] = .ok S) :
    evaluate_script c script txin tx = .ok () ↔
      (S = [] ∨ ∃ top rest, S = top :: rest ∧ top ≠ []) := by
  unfold evaluate_script
  rw [h]
  cases S with
  | nil => simp
  | cons top rest =>
    by_cases ht : top = []
    · subst ht
      simp
    · simp only [List.cons_ne_nil, false_or]
      have : (top.isEmpty) = false := by
        cases top with
        | nil => exact absurd rfl ht
        | cons a as => rfl
      simp only [this, Bool.false_eq_true, if_false]
      constructor
      · intro _
        exact ⟨top, rest, rfl, ht⟩
      · intro _
        trivial

theorem execScript_op1 :
    execScript cryptoZero smallTx smallIn [0x51] 0 [] = .ok [[1]] := by
  rw [execScript.eq_def]
  simp only [List.length_cons, List.length_nil]
  norm_num [op_pushnum]
  show execScript cryptoZero smallTx smallIn [0x51] 1 [[1]] = Except.ok [[1]]
  rw [execScript.eq_def]
  simp

/-- C2 witness: `OP_1` leaves `[[1]]`, and the success condition holds
for it. -/
theorem evaluate_script_success_condition_witness :
    execScript cryptoZero smallTx smallIn [0x51] 0 [] = .ok [[1]] ∧
      (evaluate_script cryptoZero [0x51] smallIn smallTx = .ok () ↔
        (([[1]] : Stack) = [] ∨ ∃ top rest, ([[1]] : Stack) = top :: rest ∧ top ≠ [])) :=
  ⟨execScript_op1,
    evaluate_script_success_condition cryptoZero smallTx smallIn [0x51] [[1]] execScript_op1⟩

/-- C2 counterexample: the empty script runs to the end leaving an
entirely empty stack, and `evaluate_script` reports it VALID — the claim
says an empty stack must make the script invalid. -/
theorem evaluate_script_empty_stack_counterexample :
    execScript cryptoZero smallTx smallIn [] 0 [] = .ok [] ∧
      evaluate_script cryptoZero [] smallIn smallTx = .ok () := by
  have h : execScript cryptoZero smallTx smallIn [] 0 [] = .ok [] := by
    rw [execScript.eq_def]
    simp
  refine ⟨h, ?_⟩
  unfold evaluate_script
  rw [h]

/-! ## C7: OP_CHECKLOCKTIMEVERIFY -/

set_option maxRecDepth 4000 in
/-- C7 (amended): `op_checklocktimeverify` POPS (consumes) the top stack
element and decodes it as a signed number `n` (the decode panics outside
`i128`); it succeeds — with the top element removed — exactly when
`n ≥ 0`, `n as u32` and the locktime do not lie STRICTLY on opposite
sides of 500,000,000, the locktime is not below `n as u32`, and the
input's sequence is not `0xFFFFFFFF`. -/
theorem op_checklocktimeverify_spec (stack : Stack) (tx : Transaction)
    (txin : TxIn) (s' : Stack) :
    op_checklocktimeverify stack tx txin = .ok s' ↔
      ∃ top rest, stack = top :: rest ∧ s' = rest ∧
        ¬ (decodeNumRaw top < -(2 ^ 127) ∨ 2 ^ 127 - 1 < decodeNumRaw top) ∧
        0 ≤ decodeNumRaw top ∧
        ¬ ((u32cast (decodeNumRaw top) < 500000000 ∧ tx.locktime > 500000000)
            ∨ (u32cast (decodeNumRaw top) > 500000000 ∧ tx.locktime < 500000000)) ∧
        ¬ tx.locktime < u32cast (decodeNumRaw top) ∧
        txin.sequence ≠ 0xffffffff := by
  cases stack with
  | nil =>
    simp [op_checklocktimeverify]
  | cons top rest =>
    by_cases h1 : decodeNumRaw top < -(2 ^ 127) ∨ 2 ^ 127 - 1 < decodeNumRaw top
    · have hd : decode_num top = .error "panic: number outside of i128 scope" := by
        unfold decode_num; rw [if_pos h1]
      unfold op_checklocktimeverify
      dsimp only
      rw [hd]
      constructor
      · intro h; simp at h
      · rintro ⟨t, r, heq, _, h1', _⟩
        injection heq with ht hr
        subst ht
        exact absurd h1 h1'
    · have hd : decode_num top = .ok (decodeNumRaw top) := by
        unfold decode_num; rw [if_neg h1]
      unfold op_checklocktimeverify
      dsimp only
      rw [hd]
      dsimp only
      by_cases h2 : decodeNumRaw top < 0
      · rw [if_pos h2]
        constructor
        · intro h; simp at h
        · rintro ⟨t, r, heq, _, _, h2', _⟩
          injection heq with ht hr
          subst ht
          omega
      · rw [if_neg h2]
        by_cases h3 : (u32cast (decodeNumRaw top) < 500000000 ∧ tx.locktime > 500000000)
            ∨ (u32cast (decodeNumRaw top) > 500000000 ∧ tx.locktime < 500000000)
        · rw [if_pos h3]
          constructor
          · intro h; simp at h
          · rintro ⟨t, r, heq, _, _, _, h3', _⟩
            injection heq with ht hr
            subst ht
            exact absurd h3 h3'
        · rw [if_neg h3]
          by_cases h4 : tx.locktime < u32cast (decodeNumRaw top)
          · rw [if_pos h4]
            constructor
            · intro h; simp at h
            · rintro ⟨t, r, heq, _, _, _, _, h4', _⟩
              injection heq with ht hr
              subst ht
              exact absurd h4 h4'
          · rw [if_neg h4]
            by_cases h5 : txin.sequence = 0xffffffff
            · rw [if_pos h5]
              constructor
              · intro h; simp at h
              · rintro ⟨t, r, heq, _, _, _, _, _, h5'⟩
                exact absurd h5 h5'
            · rw [if_neg h5]
              constructor
              · intro h
                injection h with h'
                subst h'
                exact ⟨top, rest, rfl, rfl, h1, by omega, h3, h4, h5⟩
              · rintro ⟨t, r, heq, hs, _⟩
                injection heq with ht hr
                subst ht
                subst hr
                subst hs
                rfl

set_option maxRecDepth 40000 in
/-- C7 counterexample: the stack number 499,999,999 (a block height just
below the threshold) with locktime exactly 500,000,000 (a unix time at
the threshold): the claim calls this a straddle and demands failure with
the stack merely peeked, but the code succeeds — and returns with the
top element consumed. -/
theorem op_checklocktimeverify_counterexample :
    op_checklocktimeverify [[0xFF, 0x64, 0xCD, 0x1D]] cltvTx smallIn = .ok [] ∧
      decodeNumRaw [0xFF, 0x64, 0xCD, 0x1D] = 499999999 ∧
      cltvTx.locktime = 500000000 ∧
      smallIn.sequence = 0 := by
  refine ⟨rfl, by decide, rfl, rfl⟩

theorem monsterScriptsig_length : monsterScriptsig.length = 1073741760 :=
  List.length_replicate 1073741760 0

theorem monster_in_len : (serialize_input monsterIn).length = 1073741805 := by
  show (get_outpoint monsterIn ++ varint (monsterIn.scriptsig.getD []).length
      ++ (monsterIn.scriptsig.getD []) ++ leBytes 4 monsterIn.sequence).length = _
  have hss : monsterIn.scriptsig.getD [] = monsterScriptsig := rfl
  rw [hss, List.length_append, List.length_append, List.length_append,
    monsterScriptsig_length]
  have hvar : (varint 1073741760).length = 5 := by
    norm_num [varint, leBytes_length]
  have hop : (get_outpoint monsterIn).length = 36 := rfl
  have hseq : (leBytes 4 monsterIn.sequence).length = 4 := rfl
  rw [hvar, hop, hseq]

theorem monster_input_weight : input_weight_sum monsterTx = 1073741806 := by
  unfold input_weight_sum
  simp only [show monsterTx.vin = [monsterIn] from rfl, List.foldl_cons, List.foldl_nil,
    List.length_cons, List.length_nil, monster_in_len]
  norm_num [add32, varint]

theorem monster_weight : calculate_weight monsterTx = 0 := by
  unfold calculate_weight
  simp only [show is_segwit monsterTx = false from rfl, Bool.false_eq_true, if_false,
    monster_input_weight, show output_weight_sum monsterTx = 10 from rfl]
  norm_num [add32]

/-- C10 counterexample: a (release-build) transaction with a
1,073,741,760-byte scriptsig makes the wrapping `u32` weight computation
return 0; `validate_and_set_weight` accepts it and stores weight 0, the
earlier sanity checks all succeed, and `validate_feerate` then divides by
zero (the `none` panic) — refuting both "the stored weight is at least
32" and "never divides by zero". -/
theorem monster_set_weight : validate_and_set_weight monsterTx = (true, monsterTx) := by
  simp only [validate_and_set_weight, monster_weight]
  norm_num
  rfl

theorem sanity_checks_eq_of (sha : List Nat → List Nat)
    (stemOf : String → Option String) (tx tx1 tx2 tx3 : Transaction)
    (hA : validate_values_and_set_fee tx = (true, tx1))
    (hB : validate_txid_hash_filename sha stemOf tx1 = (true, tx2))
    (hC : validate_and_set_weight tx2 = (true, tx3)) :
    sanity_checks sha stemOf tx =
      match validate_feerate tx3 with
      | none => none
      | some false => some (.Invalid "too low feerate", tx3)
      | some true => some (.Valid, tx3) := by
  unfold sanity_checks
  rw [hA]
  dsimp only
  rw [hB]
  dsimp only
  rw [hC]
  rfl

theorem weight_division_by_zero_counterexample :
    calculate_weight monsterTx = 0 ∧
      validate_and_set_weight monsterTx = (true, monsterTx) ∧
      validate_feerate monsterTx = none ∧
      sanity_checks shaZero stemEmpty monsterTx = none := by
  refine ⟨monster_weight, monster_set_weight, rfl, ?_⟩
  rw [sanity_checks_eq_of shaZero stemEmpty monsterTx monsterTx monsterTx monsterTx
    rfl rfl monster_set_weight]
  rfl

/-! ## Parent-lift scan lemmas (`put_parents_in_front`) -/

theorem gpi_le_of_match (p : String) :
    ∀ (l : List Transaction) (j : Nat), j < l.length →
      (l.getD j default).meta.txid_hex = p → get_parent_index l p ≤ j := by
  intro l
  induction l with
  | nil => intro j hj; simp at hj
  | cons tx rest ih =>
    intro j hj hmatch
    unfold get_parent_index
    by_cases h : tx.meta.txid_hex = p
    · rw [if_pos h]; omega
    · rw [if_neg h]
      cases j with
      | zero => exact absurd hmatch h
      | succ j =>
        have := ih j (by simpa using hj) hmatch
        omega

theorem gpi_lt_of_present (p : String) :
    ∀ l : List Transaction, (∃ u ∈ l, u.meta.txid_hex = p) →
      get_parent_index l p < l.length := by
  intro l
  induction l with
  | nil => rintro ⟨u, hu, _⟩; simp at hu
  | cons tx rest ih =>
    rintro ⟨u, hu, hup⟩
    unfold get_parent_index
    by_cases h : tx.meta.txid_hex = p
    · rw [if_pos h]; simp
    · rw [if_neg h]
      rcases List.mem_cons.mp hu with rfl | hmem
      · exact absurd hup h
      · have := ih ⟨u, hmem, hup⟩
        simp only [List.length_cons]
        omega

theorem gpi_txid (p : String) :
    ∀ l : List Transaction, get_parent_index l p < l.length →
      (l.getD (get_parent_index l p) default).meta.txid_hex = p := by
  intro l
  induction l with
  | nil => intro h; simp [get_parent_index] at h
  | cons tx rest ih =>
    intro h
    by_cases hm : tx.meta.txid_hex = p
    · have h0 : get_parent_index (tx :: rest) p = 0 := by
        unfold get_parent_index; rw [if_pos hm]
      rw [h0]; exact hm
    · have h1 : get_parent_index (tx :: rest) p = get_parent_index rest p + 1 := by
        simp only [get_parent_index]; rw [if_neg hm]
      rw [h1]
      rw [h1] at h
      exact ih (by simpa using h)

theorem gpi_eq_of_match_nodup (p : String) (l : List Transaction)
    (hnd : (l.map (·.meta.txid_hex)).Nodup) (j : Nat) (hj : j < l.length)
    (hmatch : (l.getD j default).meta.txid_hex = p) :
    get_parent_index l p = j := by
  have hle : get_parent_index l p ≤ j := gpi_le_of_match p l j hj hmatch
  have hlt : get_parent_index l p < l.length := by omega
  have htx : (l.getD (get_parent_index l p) default).meta.txid_hex = p := gpi_txid p l hlt
  have hmap : ∀ k (hk : k < l.length),
      (l.map (·.meta.txid_hex)).get ⟨k, by simpa using hk⟩
        = (l.getD k default).meta.txid_hex := by
    intro k hk
    rw [List.get_eq_getElem, List.getElem_map, List.getD_eq_getElem _ _ hk]
  have hinj := @List.Nodup.getElem_inj_iff String (l.map (·.meta.txid_hex)) hnd
      (get_parent_index l p) (by simpa) j (by simpa)
  have heq : (l.map (·.meta.txid_hex)).get ⟨get_parent_index l p, by simpa⟩
      = (l.map (·.meta.txid_hex)).get ⟨j, by simpa⟩ := by
    rw [hmap _ hlt, hmap _ hj, htx, hmatch]
  simp only [List.get_eq_getElem] at heq
  exact hinj.mp heq

theorem firstBadParent_none_iff (whole : List Transaction)
    (parents : Option (List String)) (idx : Nat) :
    firstBadParent whole parents idx = none ↔
      ∀ p ∈ parents.getD [], get_parent_index whole p ≤ idx := by
  cases parents with
  | none => simp [firstBadParent]
  | some ps =>
    simp only [firstBadParent, List.find?_eq_none, List.mem_map, Option.getD_some]
    constructor
    · intro h p hp
      have := h (get_parent_index whole p) ⟨p, hp, rfl⟩
      simpa using this
    · rintro h x ⟨p, hp, rfl⟩
      simpa using h p hp

theorem firstBadParent_some (whole : List Transaction)
    (parents : Option (List String)) (idx pIdx : Nat)
    (h : firstBadParent whole parents idx = some pIdx) :
    idx < pIdx ∧ ∃ q ∈ parents.getD [], get_parent_index whole q = pIdx := by
  cases parents with
  | none => simp [firstBadParent] at h
  | some ps =>
    unfold firstBadParent at h
    have hpred := List.find?_some h
    have hmem := List.mem_of_find?_eq_some h
    rcases List.mem_map.mp hmem with ⟨q, hq, hgq⟩
    exact ⟨by simpa using hpred, q, hq, hgq⟩

theorem findBad_none_spec (whole : List Transaction) :
    ∀ (l : List Transaction) (i0 : Nat), findBad whole l i0 = none →
      ∀ k, k < l.length →
        firstBadParent whole ((l.getD k default).meta.parents) (i0 + k) = none := by
  intro l
  induction l with
  | nil => intro i0 _ k hk; simp at hk
  | cons tx rest ih =>
    intro i0 h k hk
    unfold findBad at h
    cases hfb : firstBadParent whole tx.meta.parents i0 with
    | some q => rw [hfb] at h; cases h
    | none =>
      rw [hfb] at h
      cases k with
      | zero => simpa using hfb
      | succ k =>
        have := ih (i0 + 1) h k (by simpa using hk)
        rw [show i0 + (k + 1) = i0 + 1 + k by omega]
        exact this

theorem findBad_some_spec (whole : List Transaction) :
    ∀ (l : List Transaction) (i0 i pIdx : Nat),
      findBad whole l i0 = some (i, pIdx) →
        i0 ≤ i ∧ i - i0 < l.length ∧
        firstBadParent whole ((l.getD (i - i0) default).meta.parents) i = some pIdx ∧
        ∀ k, k < i - i0 →
          firstBadParent whole ((l.getD k default).meta.parents) (i0 + k) = none := by
  intro l
  induction l with
  | nil => intro i0 i pIdx h; cases h
  | cons tx rest ih =>
    intro i0 i pIdx h
    unfold findBad at h
    cases hfb : firstBadParent whole tx.meta.parents i0 with
    | some q =>
      rw [hfb] at h
      injection h with h'
      injection h' with h1 h2
      subst h1; subst h2
      refine ⟨Nat.le_refl _, by simp, ?_, ?_⟩
      · simpa using hfb
      · intro k hk; omega
    | none =>
      rw [hfb] at h
      obtain ⟨ha, hb, hc, hd⟩ := ih (i0 + 1) i pIdx h
      refine ⟨by omega, by simp only [List.length_cons]; omega, ?_, ?_⟩
      · rw [show i - i0 = (i - (i0 + 1)) + 1 by omega]
        exact hc
      · intro k hk
        cases k with
        | zero => simpa using hfb
        | succ k =>
          have := hd k (by omega)
          rw [show i0 + (k + 1) = i0 + 1 + k by omega]
          exact this

theorem perm_getD_cons_eraseIdx :
    ∀ (l : List Transaction) (p : Nat), p < l.length →
      List.Perm (l.getD p default :: l.eraseIdx p) l := by
  intro l
  induction l with
  | nil => intro p hp; simp at hp
  | cons x xs ih =>
    intro p hp
    cases p with
    | zero => exact List.Perm.refl _
    | succ p =>
      have hp' : p < xs.length := by simpa using hp
      show List.Perm (xs.getD p default :: x :: xs.eraseIdx p) (x :: xs)
      exact (List.Perm.swap x _ _).trans ((ih p hp').cons x)

theorem push_parent_in_front_perm (l : List Transaction) (p c : Nat) :
    List.Perm (push_parent_in_front l p c) l := by
  unfold push_parent_in_front
  by_cases h : p < l.length ∧ c < l.length
  · rw [if_pos h]
    obtain ⟨hp, hc⟩ := h
    have hc' : c ≤ (l.eraseIdx p).length := by
      rw [List.length_eraseIdx]
      rw [if_pos hp]
      omega
    exact (List.perm_insertIdx _ _ hc').trans (perm_getD_cons_eraseIdx l p hp)
  · rw [if_neg h]

theorem scanStep_perm (m m' : List Transaction) (h : scanStep m = some m') :
    List.Perm m' m := by
  unfold scanStep at h
  cases hfb : findBad m m 0 with
  | none => rw [hfb] at h; cases h
  | some ip =>
    obtain ⟨i, p⟩ := ip
    rw [hfb] at h
    injection h with h
    subst h
    exact push_parent_in_front_perm m p i

theorem putParentsLoop_some :
    ∀ (fuel : Nat) (l L : List Transaction), putParentsLoop fuel l = some L →
      scanStep L = none ∧ List.Perm L l := by
  intro fuel
  induction fuel with
  | zero => intro l L h; cases h
  | succ fuel ih =>
    intro l L h
    unfold putParentsLoop at h
    cases hs : scanStep l with
    | none =>
      rw [hs] at h
      injection h with h
      subst h
      exact ⟨hs, List.Perm.refl _⟩
    | some next =>
      rw [hs] at h
      obtain ⟨h1, h2⟩ := ih next L h
      exact ⟨h1, h2.trans (scanStep_perm l next hs)⟩

theorem insertByFeerate_perm (t : Transaction) :
    ∀ l, List.Perm (insertByFeerate t l) (t :: l) := by
  intro l
  induction l with
  | nil => exact List.Perm.refl _
  | cons u us ih =>
    unfold insertByFeerate
    by_cases h : u.meta.packet_data.packet_feerate_weight ≤
        t.meta.packet_data.packet_feerate_weight
    · rw [if_pos h]
    · rw [if_neg h]
      exact (ih.cons u).trans (List.Perm.swap t u us)

theorem sortByFeerateDesc_perm : ∀ l, List.Perm (sortByFeerateDesc l) l := by
  intro l
  induction l with
  | nil => exact List.Perm.refl _
  | cons t ts ih =>
    show List.Perm (insertByFeerate t (sortByFeerateDesc ts)) (t :: ts)
    exact (insertByFeerate_perm t _).trans (ih.cons t)

theorem cutSizeGo_take : ∀ (free : Int) (l : List Transaction),
    ∃ k, cutSizeGo free l = l.take k := by
  intro free l
  induction l generalizing free with
  | nil => exact ⟨0, rfl⟩
  | cons tx rest ih =>
    unfold cutSizeGo
    by_cases h : i64cast tx.meta.weight < free
    · rw [if_pos h]
      obtain ⟨k, hk⟩ := ih (free - i64cast tx.meta.weight)
      exact ⟨k + 1, by rw [hk]; rfl⟩
    · rw [if_neg h]; exact ⟨0, rfl⟩

theorem parentBeforeChild_take (L : List Transaction) (k : Nat)
    (h : parentBeforeChild L) : parentBeforeChild (L.take k) := by
  intro i j p hp hj
  have hlen : (L.take k).length ≤ L.length := by
    rw [List.length_take]; omega
  have hi : (i : Nat) < L.length := lt_of_lt_of_le i.isLt hlen
  have hjL : (j : Nat) < L.length := lt_of_lt_of_le j.isLt hlen
  have hgi : (L.take k).get i = L.get ⟨i, hi⟩ := by
    simp [List.get_eq_getElem, List.getElem_take]
  have hgj : (L.take k).get j = L.get ⟨j, hjL⟩ := by
    simp [List.get_eq_getElem, List.getElem_take]
  exact h ⟨i, hi⟩ ⟨j, hjL⟩ p (hgi ▸ hp) (hgj ▸ hj)

theorem fixpoint_gpi_le (L : List Transaction) (hfix : scanStep L = none) :
    ∀ k, k < L.length → ∀ p ∈ parentsOf (L.getD k default),
      get_parent_index L p ≤ k := by
  have hfb : findBad L L 0 = none := by
    unfold scanStep at hfix
    cases hfb : findBad L L 0 with
    | none => rfl
    | some ip =>
      obtain ⟨i, q⟩ := ip
      rw [hfb] at hfix
      exact Option.noConfusion hfix
  intro k hk p hp
  have hnone := findBad_none_spec L L 0 hfb k hk
  rw [Nat.zero_add] at hnone
  have := (firstBadParent_none_iff L ((L.getD k default).meta.parents) k).mp hnone
  exact this p hp

/-- C4: in the block list produced by `sort_transactions` followed by
`cut_size` — provided the loop terminated (`some L`), txids are pairwise
distinct, every parent txid names a transaction in the working set, and no
transaction lists its own txid as a parent — every present parent sits at
a strictly smaller index than its child. -/
theorem sorted_cut_parent_before_child (txs : List Transaction) (fuel : Nat)
    (L : List Transaction)
    (hnd : (txs.map (·.meta.txid_hex)).Nodup)
    (hself : ∀ tx ∈ txs, ∀ p ∈ parentsOf tx, tx.meta.txid_hex ≠ p)
    (hpres : ∀ tx ∈ txs, ∀ p ∈ parentsOf tx, ∃ u ∈ txs, u.meta.txid_hex = p)
    (hrun : sort_transactions fuel txs = some L) :
    parentBeforeChild (cut_size L) := by
  unfold sort_transactions at hrun
  obtain ⟨hfix, hpermS⟩ := putParentsLoop_some fuel _ L hrun
  have hperm : List.Perm L txs := hpermS.trans (sortByFeerateDesc_perm txs)
  have hndL : (L.map (·.meta.txid_hex)).Nodup :=
    (hperm.map (·.meta.txid_hex)).nodup_iff.mpr hnd
  have hselfL : ∀ tx ∈ L, ∀ p ∈ parentsOf tx, tx.meta.txid_hex ≠ p :=
    fun tx htx => hself tx (hperm.mem_iff.mp htx)
  have hPBC : parentBeforeChild L := by
    intro i j p hp hj
    have h1 : L.getD (i : Nat) default = L.get i := by
      rw [List.getD_eq_getElem _ _ i.isLt, List.get_eq_getElem]
    have hle : get_parent_index L p ≤ (i : Nat) :=
      fixpoint_gpi_le L hfix i i.isLt p (by rw [h1]; exact hp)
    have hj' : get_parent_index L p = (j : Nat) := by
      refine gpi_eq_of_match_nodup p L hndL j j.isLt ?_
      rw [List.getD_eq_getElem _ _ j.isLt, ← List.get_eq_getElem]
      exact hj
    rcases Nat.lt_or_ge (j : Nat) (i : Nat) with hlt | hge
    · exact hlt
    · exfalso
      have hji : (j : Nat) = (i : Nat) := by omega
      have hfin : j = i := Fin.ext hji
      subst hfin
      exact hselfL (L.get j) (List.get_mem L j j.isLt) p hp hj
  obtain ⟨k, hk⟩ := cutSizeGo_take 3970000 L
  unfold cut_size
  rw [hk]
  exact parentBeforeChild_take L k hPBC

/-- Witness for C4 at a concrete two-transaction mempool: `txW1` names
`txW2` as its parent and out-sorts it on feerate; the lift pass swaps
them and the cut keeps the parent in front. -/
theorem sorted_cut_parent_before_child_witness :
    sort_transactions 3 [txW1, txW2] = some [txW2, txW1] ∧
    parentBeforeChild (cut_size [txW2, txW1]) :=
  ⟨by decide, sorted_cut_parent_before_child [txW1, txW2] 3 [txW2, txW1]
    (by decide) (by decide) (by decide) (by decide)⟩

/-- C4 counterexample to the unamended claim: a transaction listing its
own txid as a parent satisfies the claim precondition (every parent txid
names a transaction in the working set), the sorter terminates at once,
yet index(P) < index(T) fails because P = T. -/
theorem parent_before_child_self_counterexample :
    sort_transactions 1 [txSelf] = some [txSelf] ∧
    (∀ tx ∈ [txSelf], ∀ p ∈ parentsOf tx, ∃ u ∈ [txSelf], u.meta.txid_hex = p) ∧
    ¬ parentBeforeChild (cut_size [txSelf]) := by decide

/-! ## Termination of the parent-lift pass (C8) -/

theorem putParentsLoop_succ (fuel : Nat) (m : List Transaction) :
    putParentsLoop (fuel + 1) m = match scanStep m with
      | none => some m
      | some next => putParentsLoop fuel next := rfl

theorem putParentsLoop_succ_some (fuel : Nat) (m m' : List Transaction)
    (h : scanStep m = some m') :
    putParentsLoop (fuel + 1) m = putParentsLoop fuel m' := by
  rw [putParentsLoop_succ, h]

theorem putParentsLoop_succ_none (fuel : Nat) (m : List Transaction)
    (h : scanStep m = none) : putParentsLoop (fuel + 1) m = some m := by
  rw [putParentsLoop_succ, h]

theorem getD_mem_of_lt (l : List Transaction) (k : Nat) (hk : k < l.length) :
    l.getD k default ∈ l := by
  rw [List.getD_eq_getElem _ _ hk]
  exact List.getElem_mem hk

theorem le_foldr_max : ∀ (xs : List Nat) (x : Nat), x ∈ xs → x ≤ xs.foldr max 0 := by
  intro xs
  induction xs with
  | nil => intro x hx; simp at hx
  | cons y ys ih =>
    intro x hx
    show x ≤ max y (ys.foldr max 0)
    rcases List.mem_cons.mp hx with rfl | hmem
    · exact le_max_left _ _
    · exact le_trans (ih x hmem) (le_max_right _ _)

theorem lex_step_lt (B d d' r r' : Nat) (h2 : r' ≤ B)
    (hcase : d' < d ∨ (d' = d ∧ r' < r)) :
    d' * (B + 1) + r' + 1 < d * (B + 1) + r + 1 := by
  rcases hcase with hlt | ⟨rfl, hr⟩
  · have h1 : d' + 1 ≤ d := hlt
    have h3 : (d' + 1) * (B + 1) ≤ d * (B + 1) := mul_le_mul_right' h1 (B + 1)
    have h4 : (d' + 1) * (B + 1) = d' * (B + 1) + (B + 1) := by ring
    linarith
  · linarith

theorem push_length (m : List Transaction) (p i : Nat)
    (hp : p < m.length) (hip : i < p) :
    ((m.eraseIdx p).insertIdx i (m.getD p default)).length = m.length := by
  rw [List.length_insertIdx i _ (by rw [List.length_eraseIdx, if_pos hp]; omega)]
  rw [List.length_eraseIdx, if_pos hp]
  omega

theorem push_getD_lt (m : List Transaction) (p i k : Nat)
    (hp : p < m.length) (hip : i < p) (hk : k < i) :
    ((m.eraseIdx p).insertIdx i (m.getD p default)).getD k default
      = m.getD k default := by
  have he_len : (m.eraseIdx p).length = m.length - 1 := by
    rw [List.length_eraseIdx, if_pos hp]
  have hk_e : k < (m.eraseIdx p).length := by omega
  have hk_m' : k < ((m.eraseIdx p).insertIdx i (m.getD p default)).length := by
    rw [push_length m p i hp hip]; omega
  rw [List.getD_eq_getElem _ _ hk_m', List.getD_eq_getElem _ _ (by omega : k < m.length)]
  rw [List.getElem_insertIdx_of_lt _ _ _ _ hk hk_e]
  exact List.getElem_eraseIdx_of_lt m p k hk_e (by omega)

theorem push_getD_self (m : List Transaction) (p i : Nat)
    (hp : p < m.length) (hip : i < p) :
    ((m.eraseIdx p).insertIdx i (m.getD p default)).getD i default
      = m.getD p default := by
  have hi_le : i ≤ (m.eraseIdx p).length := by
    rw [List.length_eraseIdx, if_pos hp]; omega
  have hi_m' : i < ((m.eraseIdx p).insertIdx i (m.getD p default)).length := by
    rw [push_length m p i hp hip]; omega
  rw [List.getD_eq_getElem _ _ hi_m']
  exact List.getElem_insertIdx_self _ _ _ hi_le

theorem cycle_loop_aux : ∀ fuel, putParentsLoop fuel [txA, txB] = none ∧
    putParentsLoop fuel [txB, txA] = none := by
  intro fuel
  induction fuel with
  | zero => exact ⟨rfl, rfl⟩
  | succ fuel ih =>
    refine ⟨?_, ?_⟩
    · rw [putParentsLoop_succ_some fuel [txA, txB] [txB, txA] (by decide)]
      exact ih.2
    · rw [putParentsLoop_succ_some fuel [txB, txA] [txA, txB] (by decide)]
      exact ih.1

theorem putParentsLoop_terminates_aux (l : List Transaction) (rank : String → Nat)
    (hpres : ∀ tx ∈ l, ∀ p ∈ parentsOf tx, ∃ u ∈ l, u.meta.txid_hex = p)
    (hr : ∀ tx ∈ l, ∀ p ∈ parentsOf tx, rank p < rank tx.meta.txid_hex) :
    ∀ (n : Nat) (m : List Transaction), List.Perm m l →
      (match findBad m m 0 with
        | none => 0
        | some ip =>
          (m.length - ip.1) * ((l.map (fun t => rank t.meta.txid_hex)).foldr max 0 + 1)
            + rank ((m.getD ip.1 default).meta.txid_hex) + 1) ≤ n →
      ∃ fuel L, putParentsLoop fuel m = some L := by
  intro n
  induction n using Nat.strong_induction_on with
  | _ n ih =>
    intro m hperm hμ
    cases hfb : findBad m m 0 with
    | none =>
      refine ⟨1, m, ?_⟩
      exact putParentsLoop_succ_none 0 m (by unfold scanStep; rw [hfb])
    | some ip =>
      obtain ⟨i, p⟩ := ip
      rw [hfb] at hμ
      have hμc : (m.length - i)
            * ((l.map (fun t => rank t.meta.txid_hex)).foldr max 0 + 1)
          + rank ((m.getD i default).meta.txid_hex) + 1 ≤ n := hμ
      obtain ⟨-, hilen, hfbp, hmin⟩ := findBad_some_spec m m 0 i p hfb
      simp only [Nat.sub_zero, Nat.zero_add] at hilen hfbp hmin
      obtain ⟨hip, q, hq, hgq⟩ := firstBadParent_some m _ i p hfbp
      have hq' : q ∈ parentsOf (m.getD i default) := hq
      have hmem_i : m.getD i default ∈ m := getD_mem_of_lt m i hilen
      have hpres_m : ∃ u ∈ m, u.meta.txid_hex = q := by
        obtain ⟨u, hu, hut⟩ := hpres (m.getD i default) (hperm.mem_iff.mp hmem_i) q hq'
        exact ⟨u, hperm.mem_iff.mpr hu, hut⟩
      have hplen : p < m.length := hgq ▸ gpi_lt_of_present q m hpres_m
      have hptx : (m.getD p default).meta.txid_hex = q := by
        have h0 : get_parent_index m q < m.length := by rw [hgq]; exact hplen
        have h1 := gpi_txid q m h0
        rw [hgq] at h1
        exact h1
      set m' := (m.eraseIdx p).insertIdx i (m.getD p default) with hm'
      have hstep : scanStep m = some m' := by
        unfold scanStep
        rw [hfb]
        show some (push_parent_in_front m p i) = some m'
        unfold push_parent_in_front
        rw [if_pos ⟨hplen, by omega⟩, hm']
      have hpermM : List.Perm m' m := scanStep_perm m m' hstep
      have hperm' : List.Perm m' l := hpermM.trans hperm
      have hlen' : m'.length = m.length := by rw [hm']; exact push_length m p i hplen hip
      have hpre : ∀ k, k < i → m'.getD k default = m.getD k default := by
        intro k hk; rw [hm']; exact push_getD_lt m p i k hplen hip hk
      have hati : m'.getD i default = m.getD p default := by
        rw [hm']; exact push_getD_self m p i hplen hip
      have hnobad' : ∀ k, k < i →
          firstBadParent m' ((m'.getD k default).meta.parents) k = none := by
        intro k hk
        rw [hpre k hk]
        refine (firstBadParent_none_iff m' _ k).mpr ?_
        intro q2 hq2
        have h0 := (firstBadParent_none_iff m _ k).mp (hmin k hk) q2 hq2
        have hj0 : get_parent_index m q2 < m.length := by omega
        have htq : (m.getD (get_parent_index m q2) default).meta.txid_hex = q2 :=
          gpi_txid q2 m hj0
        have htq' : (m'.getD (get_parent_index m q2) default).meta.txid_hex = q2 := by
          rw [hpre _ (by omega)]; exact htq
        have hle2 := gpi_le_of_match q2 m' (get_parent_index m q2) (by omega) htq'
        omega
      cases hfb' : findBad m' m' 0 with
      | none =>
        refine ⟨2, m', ?_⟩
        rw [putParentsLoop_succ_some 1 m m' hstep]
        exact putParentsLoop_succ_none 0 m' (by unfold scanStep; rw [hfb'])
      | some ip' =>
        obtain ⟨i', p'⟩ := ip'
        obtain ⟨-, hi'len, hfbp', hmin'⟩ := findBad_some_spec m' m' 0 i' p' hfb'
        simp only [Nat.sub_zero, Nat.zero_add] at hi'len hfbp' hmin'
        have hii' : i ≤ i' := by
          by_contra hcon
          push_neg at hcon
          have hnone := hnobad' i' hcon
          rw [hnone] at hfbp'
          exact Option.noConfusion hfbp'
        have hmem' : m'.getD i' default ∈ l :=
          hperm'.mem_iff.mp (getD_mem_of_lt m' i' hi'len)
        have hrB : rank ((m'.getD i' default).meta.txid_hex) ≤
            (l.map (fun t => rank t.meta.txid_hex)).foldr max 0 :=
          le_foldr_max _ _ (List.mem_map_of_mem _ hmem')
        have hcase : (m'.length - i' < m.length - i) ∨
            (m'.length - i' = m.length - i ∧
              rank ((m'.getD i' default).meta.txid_hex) <
              rank ((m.getD i default).meta.txid_hex)) := by
          rcases Nat.eq_or_lt_of_le hii' with heq | hlt
          · right
            refine ⟨by omega, ?_⟩
            have hri : rank q < rank ((m.getD i default).meta.txid_hex) :=
              hr (m.getD i default) (hperm.mem_iff.mp hmem_i) q hq'
            rw [← heq, hati, hptx]
            exact hri
          · left
            omega
        have hdec := lex_step_lt ((l.map (fun t => rank t.meta.txid_hex)).foldr max 0)
          (m.length - i) (m'.length - i')
          (rank ((m.getD i default).meta.txid_hex))
          (rank ((m'.getD i' default).meta.txid_hex)) hrB hcase
        have hlt_n : (m'.length - i')
              * ((l.map (fun t => rank t.meta.txid_hex)).foldr max 0 + 1)
            + rank ((m'.getD i' default).meta.txid_hex) + 1 < n :=
          lt_of_lt_of_le hdec hμc
        obtain ⟨fuel, L, hL⟩ := ih _ hlt_n m' hperm' (by rw [hfb'])
        refine ⟨fuel + 1, L, ?_⟩
        rw [putParentsLoop_succ_some fuel m m' hstep]
        exact hL

/-- C8 (amended): the parent-lift loop of `put_parents_in_front` terminates
for every input list in which every parent txid is present AND the parent
relation is acyclic (witnessed by a rank function that strictly decreases
from child to parent).  The spec's measure `Σ (parent_index − child_index)⁺`
does not strictly decrease at each lift; termination instead follows from
the lexicographic measure (first lifted child index, rank of the
transaction standing there). -/
theorem put_parents_in_front_terminates (l : List Transaction)
    (hpres : ∀ tx ∈ l, ∀ p ∈ parentsOf tx, ∃ u ∈ l, u.meta.txid_hex = p)
    (hrank : ∃ rank : String → Nat, ∀ tx ∈ l, ∀ p ∈ parentsOf tx,
      rank p < rank tx.meta.txid_hex) :
    ∃ fuel L, putParentsLoop fuel l = some L := by
  obtain ⟨rank, hr⟩ := hrank
  exact putParentsLoop_terminates_aux l rank hpres hr
    (match findBad l l 0 with
      | none => 0
      | some ip =>
        (l.length - ip.1) * ((l.map (fun t => rank t.meta.txid_hex)).foldr max 0 + 1)
          + rank ((l.getD ip.1 default).meta.txid_hex) + 1)
    l (List.Perm.refl l) (Nat.le_refl _)

/-- Witness for C8 on the two-transaction chain `txW1 → txW2`, ranked by
generation. -/
theorem put_parents_in_front_terminates_witness :
    ∃ fuel L, putParentsLoop fuel [txW1, txW2] = some L :=
  put_parents_in_front_terminates [txW1, txW2] (by decide)
    ⟨fun s => if s = "w1" then 1 else 0, by decide⟩

/-- C8 counterexample to the unamended claim: the two-transaction parent
cycle `txA ↔ txB` satisfies the stated precondition (every parent txid
occurs in the list) yet the loop never stops, whatever the iteration
budget; and on the acyclic list `[txC, txY, txP]` a lift leaves the spec's
measure `Σ (parent_index − child_index)⁺` unchanged at 2 instead of
strictly decreasing it. -/
theorem parent_lift_nontermination_counterexample :
    (∀ tx ∈ [txA, txB], ∀ p ∈ parentsOf tx, ∃ u ∈ [txA, txB], u.meta.txid_hex = p) ∧
    (∀ fuel, putParentsLoop fuel [txA, txB] = none) ∧
    scanStep [txC, txY, txP] = some [txP, txC, txY] ∧
    liftMeasure [txC, txY, txP] = 2 ∧ liftMeasure [txP, txC, txY] = 2 :=
  ⟨by decide, fun fuel => (cycle_loop_aux fuel).1, by decide, by decide, by decide⟩

end BlockBuilder
